import Mathlib

/-!
Verification of the safe arithmetic evaluator of `blue_white_calculator.py`.

The program's core is `safe_eval`: it normalizes display symbols (`×÷−^`),
strips whitespace, maps empty input to the integer `0`, parses the remaining
string with Python's `ast.parse(mode='eval')`, and walks the resulting tree
with `_eval_ast`, which admits only numeric constants, the six binary
operators `+ - * / % **`, and unary plus and minus, rejecting every other
node kind.

Modelling decisions (documented once here):
* Python numbers are modelled exactly: `int` as `ℤ` and `float` as an
  unnormalized fraction `QQ` with positive denominator, interpreted in `ℚ`
  by `QQ.toRat`.  IEEE-754 rounding of float arithmetic is outside the
  model; all float computations are exact rationals.
* A Python `float` power with positive base and non-integer exponent is in
  general irrational; the model returns the abstract value `PyNum.preal`
  (payload untracked).  A negative base with a non-integer exponent gives a
  Python `complex` result, modelled by the abstract `PyNum.pcomplex`
  (payload untracked).  Operations whose result depends on the untracked
  payload of `preal`/`pcomplex` (for example division by such a value) are
  abstracted as well.
* `ast.parse(mode='eval')` is modelled by a fuelled scannerless
  recursive-descent parser covering the constructs reachable from the
  calculator: decimal int/float literals (including exponent notation),
  names, the keywords `True`/`False`/`None`, string literals (without
  escape sequences), calls, parenthesized groups, tuples, binary and unary
  operators including `//`.  Unmodelled Python lexical corners (hex/binary
  literals, numeric underscores, comparison operators, attribute access)
  are noted where relevant; no claim depends on them.
* Python whitespace splitting is modelled over the ASCII whitespace
  characters.
-/

/-- Unnormalized rational number with a positive denominator, the exact
model of a Python `float` value. -/
structure QQ where
  num : ℤ
  den : ℤ
  denPos : 0 < den

/-- Value of a `QQ` in `ℚ`. -/
def QQ.toRat (q : QQ) : ℚ := (q.num : ℚ) / (q.den : ℚ)

/-- Embed an integer as a float value. -/
def QQ.ofInt (n : ℤ) : QQ := ⟨n, 1, one_pos⟩

/-- Exact float addition. -/
def QQ.add (a b : QQ) : QQ :=
  ⟨a.num * b.den + b.num * a.den, a.den * b.den, mul_pos a.denPos b.denPos⟩

/-- Exact float subtraction. -/
def QQ.sub (a b : QQ) : QQ :=
  ⟨a.num * b.den - b.num * a.den, a.den * b.den, mul_pos a.denPos b.denPos⟩

/-- Exact float multiplication. -/
def QQ.mul (a b : QQ) : QQ :=
  ⟨a.num * b.num, a.den * b.den, mul_pos a.denPos b.denPos⟩

/-- Exact float negation. -/
def QQ.neg (a : QQ) : QQ := ⟨-a.num, a.den, a.denPos⟩

/-- Exact float reciprocal; callers check for a zero numerator first, the
zero case returns an unused placeholder. -/
def QQ.inv (a : QQ) : QQ :=
  if h : 0 < a.num then ⟨a.den, a.num, h⟩
  else if h2 : a.num < 0 then ⟨-a.den, -a.num, by omega⟩
  else ⟨0, 1, one_pos⟩

/-- Exact float division (Python true division); callers check the divisor
for zero first. -/
def QQ.div (a b : QQ) : QQ := a.mul b.inv

/-- Floor of a float value. -/
def QQ.floorQ (q : QQ) : ℤ := Int.fdiv q.num q.den

/-- Python float modulo: `a - b * floor(a / b)`, so the sign follows the
divisor. -/
def QQ.fmod (a b : QQ) : QQ := a.sub (b.mul (QQ.ofInt ((a.div b).floorQ)))

/-- Whether the float value is integral (Python `float.is_integer`). -/
def QQ.isInt (q : QQ) : Bool := q.num % q.den = 0

/-- Integer value of an integral float. -/
def QQ.toInt (q : QQ) : ℤ := q.num / q.den

/-- Exact float natural power. -/
def QQ.powNat (q : QQ) (k : ℕ) : QQ := ⟨q.num ^ k, q.den ^ k, pow_pos q.denPos k⟩

/-- Exact float integer power; a negative exponent goes through `QQ.inv`,
callers rule out a zero base first. -/
def QQ.zpow (q : QQ) (n : ℤ) : QQ :=
  if 0 ≤ n then q.powNat n.toNat else q.inv.powNat (-n).toNat

/-- Error taxonomy of `safe_eval`: `syntaxError` models `SyntaxError` from
`ast.parse`, `unsupportedConstant` and `unsupportedExpression` the two
`ValueError`s of `_eval_ast`, `zeroDivision` Python's `ZeroDivisionError`,
`typeError` Python's `TypeError` (complex modulo), and `internalFuel` is
the out-of-fuel marker of the fuelled parser model. -/
inductive PyErr where
  | syntaxError
  | unsupportedConstant
  | unsupportedExpression
  | zeroDivision
  | typeError
  | internalFuel

/-- Binary operator node kinds reachable by the parser; `_ALLOWED_BINOP`
contains the first six, `floorDiv` (`//`) is parseable but not allowed. -/
inductive BOp where
  | add
  | sub
  | mult
  | div
  | mod
  | pow
  | floorDiv

/-- Unary operator node kinds (`_ALLOWED_UNARY`). -/
inductive UOp where
  | uadd
  | usub

/-- Python constant payloads as classified by `_eval_ast`: `isinstance(v,
(int, float))` accepts `cint`, `cfloat` and (because `bool` is a subclass
of `int` in Python) `cbool`; `cstr` and `cnone` are rejected. -/
inductive PyConst where
  | cint (n : ℤ)
  | cfloat (q : QQ)
  | cbool (b : Bool)
  | cstr (s : List Char)
  | cnone

/-- Python AST nodes reachable from `ast.parse(mode='eval')` on calculator
input, the closed node set that `_eval_ast` pattern-matches on. -/
inductive Ast where
  | expression (body : Ast)
  | constant (c : PyConst)
  | binOp (left : Ast) (op : BOp) (right : Ast)
  | unaryOp (op : UOp) (operand : Ast)
  | name (id : List Char)
  | call (func : Ast) (args : List Ast)
  | tuple (elts : List Ast)
  | listLit (elts : List Ast)

/-- Python runtime values produced by the evaluator: `int`, `float`,
`bool`, and the two abstracted kinds `complex` (non-real results of `**`)
and `preal` (float results of `**` whose exact value the rational model
does not track). -/
inductive PyNum where
  | pint (n : ℤ)
  | pfloat (q : QQ)
  | pbool (b : Bool)
  | pcomplex
  | preal

/-- Arithmetic view of a value: Python coerces `bool` to `int` inside every
arithmetic operator. -/
inductive AV where
  | i (n : ℤ)
  | f (q : QQ)
  | cpx
  | real

/-- Coerce a value to its arithmetic view. -/
def av : PyNum → AV
  | .pint n => .i n
  | .pfloat q => .f q
  | .pbool b => .i (if b then 1 else 0)
  | .pcomplex => .cpx
  | .preal => .real

/-- Back from the arithmetic view; arithmetic operators never return
`bool`. -/
def unAV : AV → PyNum
  | .i n => .pint n
  | .f q => .pfloat q
  | .cpx => .pcomplex
  | .real => .preal

/-- Numeric payload of an `i`/`f` view (unused placeholder otherwise). -/
def qOf : AV → QQ
  | .i n => QQ.ofInt n
  | .f q => q
  | _ => QQ.ofInt 0

/-- Python `+` on numbers: int stays int, any float makes a float, the
abstracted kinds are absorbing. -/
def addAV : AV → AV → AV
  | .i a, .i b => .i (a + b)
  | .cpx, _ => .cpx
  | _, .cpx => .cpx
  | .real, _ => .real
  | _, .real => .real
  | x, y => .f (QQ.add (qOf x) (qOf y))

/-- Python `-` on numbers. -/
def subAV : AV → AV → AV
  | .i a, .i b => .i (a - b)
  | .cpx, _ => .cpx
  | _, .cpx => .cpx
  | .real, _ => .real
  | _, .real => .real
  | x, y => .f (QQ.sub (qOf x) (qOf y))

/-- Python `*` on numbers. -/
def mulAV : AV → AV → AV
  | .i a, .i b => .i (a * b)
  | .cpx, _ => .cpx
  | _, .cpx => .cpx
  | .real, _ => .real
  | _, .real => .real
  | x, y => .f (QQ.mul (qOf x) (qOf y))

/-- Whether a tracked numeric value is exactly zero. -/
def zeroAV : AV → Bool
  | .i n => n = 0
  | .f q => q.num = 0
  | _ => false

/-- Python `/` (true division): division by exact zero raises
`ZeroDivisionError`, otherwise the result is a float (or an abstracted
kind). -/
def divAV (x y : AV) : Except PyErr AV :=
  if zeroAV y then .error .zeroDivision
  else match x, y with
    | .cpx, _ => .ok .cpx
    | _, .cpx => .ok .cpx
    | .real, _ => .ok .real
    | _, .real => .ok .real
    | a, b => .ok (.f (QQ.div (qOf a) (qOf b)))

/-- Python `%`: a complex operand raises `TypeError`, a zero divisor raises
`ZeroDivisionError`, `int % int` is `Int.fmod` (sign of the divisor), and
any float makes a float modulo. -/
def modAV (x y : AV) : Except PyErr AV :=
  match x, y with
  | .cpx, _ => .error .typeError
  | _, .cpx => .error .typeError
  | _, _ =>
    if zeroAV y then .error .zeroDivision
    else match x, y with
      | .i a, .i b => .ok (.i (Int.fmod a b))
      | .real, _ => .ok .real
      | _, .real => .ok .real
      | a, b => .ok (.f (QQ.fmod (qOf a) (qOf b)))

/-- Python float power semantics shared by the mixed `**` cases: an
integral exponent is exact (raising `ZeroDivisionError` for a zero base
and negative exponent); a non-integral exponent with a negative base gives
a `complex` number, with a zero base either `0.0` or `ZeroDivisionError`,
and with a positive base an untracked positive real. -/
def floatPow (qb qe : QQ) : Except PyErr AV :=
  if qe.isInt then
    if qb.num = 0 ∧ qe.toInt < 0 then .error .zeroDivision
    else .ok (.f (qb.zpow qe.toInt))
  else if qb.num < 0 then .ok .cpx
  else if qb.num = 0 then
    if qe.num < 0 then .error .zeroDivision else .ok (.f (QQ.ofInt 0))
  else .ok .real

/-- Python `**`: `int ** nonnegative int` stays int, `int ** negative int`
is a float reciprocal (`ZeroDivisionError` on zero base), any float
operand goes through `floatPow`, and the abstracted kinds are absorbing. -/
def powAV : AV → AV → Except PyErr AV
  | .cpx, _ => .ok .cpx
  | _, .cpx => .ok .cpx
  | .real, _ => .ok .real
  | .i a, .i b =>
    if 0 ≤ b then .ok (.i (a ^ b.toNat))
    else if a = 0 then .error .zeroDivision
    else .ok (.f ((QQ.ofInt a).zpow b))
  | .i a, .real => if a < 0 then .ok .cpx else .ok .real
  | .f qb, .real => if qb.num < 0 then .ok .cpx else .ok .real
  | .i a, .f qe => floatPow (QQ.ofInt a) qe
  | .f qb, .i b => floatPow qb (QQ.ofInt b)
  | .f qb, .f qe => floatPow qb qe

/-- Python unary `-` (`operator.neg`). -/
def negAV : AV → AV
  | .i n => .i (-n)
  | .f q => .f q.neg
  | .cpx => .cpx
  | .real => .real

/-- Python unary `+` (`operator.pos`); on the arithmetic view it is the
identity (`+True` is the int `1` because `av` already coerced). -/
def posAV : AV → AV := fun x => x

/-- Dispatch of `_ALLOWED_BINOP`: the six allowed operators applied to two
evaluated operands.  `floorDiv` is unreachable here (`_eval_ast` rejects
the node before evaluating operands) and maps to the same rejection. -/
def applyBinOp : BOp → PyNum → PyNum → Except PyErr PyNum
  | .add, l, r => .ok (unAV (addAV (av l) (av r)))
  | .sub, l, r => .ok (unAV (subAV (av l) (av r)))
  | .mult, l, r => .ok (unAV (mulAV (av l) (av r)))
  | .div, l, r => (divAV (av l) (av r)).map unAV
  | .mod, l, r => (modAV (av l) (av r)).map unAV
  | .pow, l, r => (powAV (av l) (av r)).map unAV
  | .floorDiv, _, _ => .error .unsupportedExpression

/-- Dispatch of `_ALLOWED_UNARY`. -/
def applyUnaryOp : UOp → PyNum → PyNum
  | .uadd, v => unAV (posAV (av v))
  | .usub, v => unAV (negAV (av v))

/-- The restricted AST walk `_eval_ast`: numeric constants (including
`bool`, a Python `int` subclass) evaluate to themselves, allowed binary
and unary operators recurse (left operand first), and every other node
kind raises a `ValueError`.  A `BinOp` whose operator is not in
`_ALLOWED_BINOP` (here `//`) is rejected before its operands are
evaluated. -/
def evalAst : Ast → Except PyErr PyNum
  | .expression b => evalAst b
  | .constant (.cint n) => .ok (.pint n)
  | .constant (.cfloat q) => .ok (.pfloat q)
  | .constant (.cbool b) => .ok (.pbool b)
  | .constant (.cstr _) => .error .unsupportedConstant
  | .constant .cnone => .error .unsupportedConstant
  | .binOp l op r =>
    match op with
    | .floorDiv => .error .unsupportedExpression
    | _ =>
      match evalAst l with
      | .error e => .error e
      | .ok lv =>
        match evalAst r with
        | .error e => .error e
        | .ok rv => applyBinOp op lv rv
  | .unaryOp op a =>
    match evalAst a with
    | .error e => .error e
    | .ok v => .ok (applyUnaryOp op v)
  | .name _ => .error .unsupportedExpression
  | .call _ _ => .error .unsupportedExpression
  | .tuple _ => .error .unsupportedExpression
  | .listLit _ => .error .unsupportedExpression

/-- Numeric value of an ASCII digit character. -/
def digitOf (c : Char) : ℕ := c.toNat - 48

/-- Munch a maximal run of ASCII digits, returning their values and the
rest of the input. -/
def munchDigits : List Char → List ℕ × List Char
  | [] => ([], [])
  | c :: cs =>
    if c.isDigit then
      let r := munchDigits cs
      (digitOf c :: r.1, r.2)
    else ([], c :: cs)

/-- Value of a big-endian digit list. -/
def digitsVal (ds : List ℕ) : ℕ := ds.foldl (fun a d => 10 * a + d) 0

/-- Mantissa value of an integer part and a fractional part. -/
def fracVal (ip fp : List ℕ) : QQ :=
  ⟨(digitsVal ip : ℤ) * 10 ^ fp.length + (digitsVal fp : ℤ), 10 ^ fp.length,
    pow_pos (by norm_num) _⟩

/-- Scale a mantissa by a power of ten (literal exponent part). -/
def applyExp (m : QQ) (e : ℤ) : QQ :=
  if 0 ≤ e then ⟨m.num * 10 ^ e.toNat, m.den, m.denPos⟩
  else ⟨m.num, m.den * 10 ^ (-e).toNat, mul_pos m.denPos (pow_pos (by norm_num) _)⟩

/-- Digits of an exponent part after an optional sign; Python requires at
least one digit there. -/
def readExpDigits (neg : Bool) (cs : List Char) : Except PyErr (ℤ × List Char) :=
  let r := munchDigits cs
  if r.1.isEmpty then .error .syntaxError
  else .ok (if neg then -(digitsVal r.1 : ℤ) else (digitsVal r.1 : ℤ), r.2)

/-- Optional exponent part of a numeric literal (`e`/`E`, optional sign,
digits). -/
def readExpPart : List Char → Except PyErr (Option (ℤ × List Char))
  | [] => .ok none
  | c :: cs =>
    if c = 'e' ∨ c = 'E' then
      if cs.headD ' ' = '+' then (readExpDigits false cs.tail).map some
      else if cs.headD ' ' = '-' then (readExpDigits true cs.tail).map some
      else (readExpDigits false cs).map some
    else .ok none

/-- Munch a Python decimal numeric literal: an `int` without a dot or
exponent, otherwise a `float`.  A decimal `int` literal with a leading
zero and a nonzero value is a `SyntaxError` in Python 3.  Numeric
underscores and hex/binary/octal literals are not modelled. -/
def munchNumber (cs : List Char) : Except PyErr (PyConst × List Char) :=
  let ip := (munchDigits cs).1
  let rest1 := (munchDigits cs).2
  if rest1.headD ' ' = '.' then
    let fp := (munchDigits rest1.tail).1
    let rest2 := (munchDigits rest1.tail).2
    if ip.isEmpty ∧ fp.isEmpty then .error .syntaxError
    else
      match readExpPart rest2 with
      | .error e => .error e
      | .ok none => .ok (.cfloat (fracVal ip fp), rest2)
      | .ok (some (e, rest3)) => .ok (.cfloat (applyExp (fracVal ip fp) e), rest3)
  else
    if ip.isEmpty then .error .syntaxError
    else
      match readExpPart rest1 with
      | .error e => .error e
      | .ok none =>
        if ip.headD 0 = 0 ∧ digitsVal ip ≠ 0 then .error .syntaxError
        else .ok (.cint (digitsVal ip), rest1)
      | .ok (some (e, rest3)) =>
        .ok (.cfloat (applyExp (QQ.ofInt (digitsVal ip)) e), rest3)

/-- Whether a character can start a Python identifier (ASCII fragment). -/
def isNameStart (c : Char) : Bool := c.isAlpha || c = '_'

/-- Munch a maximal identifier, returning its characters and the rest. -/
def munchName : List Char → List Char × List Char
  | [] => ([], [])
  | c :: cs =>
    if c.isAlphanum || c = '_' then
      let r := munchName cs
      (c :: r.1, r.2)
    else ([], c :: cs)

/-- Munch a string literal body up to the closing quote `q`; escape
sequences are not modelled. -/
def munchStr (q : Char) : List Char → Except PyErr (List Char × List Char)
  | [] => .error .syntaxError
  | c :: cs =>
    if c = q then .ok ([], cs)
    else (munchStr q cs).map (fun r => (c :: r.1, r.2))

/-- Parser state: the grammar level being parsed, or a left-factored loop
continuation carrying the expression built so far.  The levels mirror
Python's expression grammar restricted to the reachable constructs:
`testlist` (tuples), `arith` (`+ -`), `term` (`* / % //`), `factor`
(unary sign), `power` (`**`, right-associative with a `factor` right
operand), `primary` (atom plus call trailers), `atom`. -/
inductive PMode where
  | testlist
  | arith
  | term
  | factor
  | power
  | primary
  | atom
  | arithTail (acc : Ast)
  | termTail (acc : Ast)
  | trailers (acc : Ast)
  | argsCont (f : Ast) (args : List Ast)
  | listCont (elts : List Ast)
  | testlistTail (acc : List Ast)

/-- Fuelled scannerless recursive-descent parser modelling
`ast.parse(mode='eval')` on whitespace-free input.  Every recursive call
decreases the fuel by one; `safe_eval` supplies enough fuel for any
input. -/
def parseM : ℕ → PMode → List Char → Except PyErr (Ast × List Char)
  | 0, _, _ => .error .internalFuel
  | fuel + 1, mode, cs =>
    match mode with
    | .testlist =>
      match parseM fuel .arith cs with
      | .error e => .error e
      | .ok (a, rest) =>
        if rest.headD ' ' = ',' then parseM fuel (.testlistTail [a]) rest.tail
        else .ok (a, rest)
    | .testlistTail acc =>
      if cs.headD ' ' = ')' ∨ cs.isEmpty then .ok (.tuple acc.reverse, cs)
      else
        match parseM fuel .arith cs with
        | .error e => .error e
        | .ok (a, rest) =>
          if rest.headD ' ' = ',' then parseM fuel (.testlistTail (a :: acc)) rest.tail
          else .ok (.tuple (a :: acc).reverse, rest)
    | .arith =>
      match parseM fuel .term cs with
      | .error e => .error e
      | .ok (a, rest) => parseM fuel (.arithTail a) rest
    | .arithTail acc =>
      match cs with
      | [] => .ok (acc, [])
      | c :: cs2 =>
        if c = '+' then
          match parseM fuel .term cs2 with
          | .error e => .error e
          | .ok (b, rest) => parseM fuel (.arithTail (.binOp acc .add b)) rest
        else if c = '-' then
          match parseM fuel .term cs2 with
          | .error e => .error e
          | .ok (b, rest) => parseM fuel (.arithTail (.binOp acc .sub b)) rest
        else .ok (acc, c :: cs2)
    | .term =>
      match parseM fuel .factor cs with
      | .error e => .error e
      | .ok (a, rest) => parseM fuel (.termTail a) rest
    | .termTail acc =>
      match cs with
      | [] => .ok (acc, [])
      | c :: cs2 =>
        if c = '*' then
          if cs2.headD ' ' = '*' then .ok (acc, c :: cs2)
          else
            match parseM fuel .factor cs2 with
            | .error e => .error e
            | .ok (b, rest) => parseM fuel (.termTail (.binOp acc .mult b)) rest
        else if c = '/' then
          if cs2.headD ' ' = '/' then
            match parseM fuel .factor cs2.tail with
            | .error e => .error e
            | .ok (b, rest) => parseM fuel (.termTail (.binOp acc .floorDiv b)) rest
          else
            match parseM fuel .factor cs2 with
            | .error e => .error e
            | .ok (b, rest) => parseM fuel (.termTail (.binOp acc .div b)) rest
        else if c = '%' then
          match parseM fuel .factor cs2 with
          | .error e => .error e
          | .ok (b, rest) => parseM fuel (.termTail (.binOp acc .mod b)) rest
        else .ok (acc, c :: cs2)
    | .factor =>
      match cs with
      | [] => parseM fuel .power []
      | c :: cs2 =>
        if c = '+' then
          match parseM fuel .factor cs2 with
          | .error e => .error e
          | .ok (a, rest) => .ok (.unaryOp .uadd a, rest)
        else if c = '-' then
          match parseM fuel .factor cs2 with
          | .error e => .error e
          | .ok (a, rest) => .ok (.unaryOp .usub a, rest)
        else parseM fuel .power (c :: cs2)
    | .power =>
      match parseM fuel .primary cs with
      | .error e => .error e
      | .ok (a, rest) =>
        if rest.headD ' ' = '*' ∧ rest.tail.headD ' ' = '*' then
          match parseM fuel .factor rest.tail.tail with
          | .error e => .error e
          | .ok (b, rest2) => .ok (.binOp a .pow b, rest2)
        else .ok (a, rest)
    | .primary =>
      match parseM fuel .atom cs with
      | .error e => .error e
      | .ok (a, rest) => parseM fuel (.trailers a) rest
    | .trailers acc =>
      match cs with
      | [] => .ok (acc, [])
      | c :: cs2 =>
        if c = '(' then
          if cs2.headD ' ' = ')' then parseM fuel (.trailers (.call acc [])) cs2.tail
          else parseM fuel (.argsCont acc []) cs2
        else .ok (acc, c :: cs2)
    | .argsCont f args =>
      match parseM fuel .arith cs with
      | .error e => .error e
      | .ok (a, rest) =>
        if rest.headD ' ' = ')' then
          parseM fuel (.trailers (.call f (args ++ [a]))) rest.tail
        else if rest.headD ' ' = ',' then
          if rest.tail.headD ' ' = ')' then
            parseM fuel (.trailers (.call f (args ++ [a]))) rest.tail.tail
          else parseM fuel (.argsCont f (args ++ [a])) rest.tail
        else .error .syntaxError
    | .listCont elts =>
      match parseM fuel .arith cs with
      | .error e => .error e
      | .ok (a, rest) =>
        if rest.headD ' ' = ']' then .ok (.listLit (elts ++ [a]), rest.tail)
        else if rest.headD ' ' = ',' then
          if rest.tail.headD ' ' = ']' then .ok (.listLit (elts ++ [a]), rest.tail.tail)
          else parseM fuel (.listCont (elts ++ [a])) rest.tail
        else .error .syntaxError
    | .atom =>
      match cs with
      | [] => .error .syntaxError
      | c :: cs2 =>
        if c = '[' then
          if cs2.headD ' ' = ']' then .ok (.listLit [], cs2.tail)
          else parseM fuel (.listCont []) cs2
        else if c = '(' then
          match parseM fuel .testlist cs2 with
          | .error e => .error e
          | .ok (a, rest) =>
            if rest.headD ' ' = ')' then .ok (a, rest.tail) else .error .syntaxError
        else if c.isDigit ∨ c = '.' then
          match munchNumber (c :: cs2) with
          | .error e => .error e
          | .ok (k, rest) => .ok (.constant k, rest)
        else if isNameStart c then
          let r := munchName (c :: cs2)
          if r.1 = "True".data then .ok (.constant (.cbool true), r.2)
          else if r.1 = "False".data then .ok (.constant (.cbool false), r.2)
          else if r.1 = "None".data then .ok (.constant .cnone, r.2)
          else .ok (.name r.1, r.2)
        else if c = '\'' ∨ c = '"' then
          match munchStr c cs2 with
          | .error e => .error e
          | .ok (s, rest) => .ok (.constant (.cstr s), rest)
        else .error .syntaxError

/-- Display-symbol canonicalization of `safe_eval`: `×`, `÷` and the
minus-sign variant map to ASCII operators. -/
def mapSymbol (c : Char) : Char :=
  if c = '×' then '*' else if c = '÷' then '/' else if c = '−' then '-' else c

/-- Caret expansion of `safe_eval`: `^` becomes `**`. -/
def expandCaret (c : Char) : List Char := if c = '^' then ['*', '*'] else [c]

/-- ASCII whitespace removed by `''.join(s.split())`. -/
def isPyWs (c : Char) : Bool :=
  c = ' ' || c = '\t' || c = '\n' || c = '\r' || c = '\x0b' || c = '\x0c'

/-- Input normalization of `safe_eval`: symbol mapping, caret expansion,
whitespace removal, in the source's order. -/
def sanitizeChars (cs : List Char) : List Char :=
  (((cs.map mapSymbol).flatMap expandCaret).filter (fun c => !(isPyWs c)))

/-- Fuel budget supplied to the parser; ample for any input length. -/
def pyFuel (cs : List Char) : ℕ := 8 * cs.length + 30

/-- Model of `ast.parse(sanitized, mode='eval')`: a complete `testlist`
with no input left over, wrapped in an `Expression` node. -/
def parseEvalMode (cs : List Char) : Except PyErr Ast :=
  match parseM (pyFuel cs) .testlist cs with
  | .ok (a, []) => .ok (.expression a)
  | .ok _ => .error .syntaxError
  | .error e => .error e

/-- The evaluator `safe_eval`: sanitize, return the int `0` on empty
input, otherwise parse and walk the tree. -/
def safe_eval (expr : String) : Except PyErr PyNum :=
  let sanitized := sanitizeChars expr.data
  if sanitized.isEmpty then .ok (.pint 0)
  else
    match parseEvalMode sanitized with
    | .error e => .error e
    | .ok t => evalAst t

/-- Character of a decimal digit value. -/
def digitChar (d : ℕ) : Char := Char.ofNat (48 + d)

/-- Fuelled big-endian decimal digits of a natural number. -/
def natDigitsGo : ℕ → ℕ → List ℕ
  | 0, _ => []
  | fuel + 1, n => if n < 10 then [n] else natDigitsGo fuel (n / 10) ++ [n % 10]

/-- Decimal digits of a natural number. -/
def natDigits (n : ℕ) : List ℕ := natDigitsGo (n + 1) n

/-- Decimal characters of a natural number. -/
def natChars (n : ℕ) : List Char := (natDigits n).map digitChar

/-- Decimal characters of an integer, Python `str(int)`. -/
def intChars (m : ℤ) : List Char :=
  if m < 0 then '-' :: natChars m.natAbs else natChars m.toNat

/-- Python `str` of an int. -/
def pyIntStr (m : ℤ) : String := String.mk (intChars m)

/-- Decimal rendering of a non-integral float value.  Python's `repr`
prints the shortest decimal that round-trips the IEEE double; the exact
model prints the exact value when it has a decimal expansion of at most 30
digits and an approximation marker otherwise.  No claim constrains this
branch. -/
def pyFloatStr (q : QQ) : String :=
  match (List.range 31).find? (fun k => q.num * 10 ^ k % q.den = 0) with
  | some k =>
    let scaled := (q.num * 10 ^ k / q.den).natAbs
    let ds := natChars scaled
    let ds2 := List.replicate (k + 1 - ds.length) '0' ++ ds
    String.mk ((if q.num < 0 then ['-'] else []) ++
      ds2.take (ds2.length - k) ++ '.' :: ds2.drop (ds2.length - k))
  | none => String.mk ['?']

/-- Result formatting of `Calculator._calculate`: a float with integral
value becomes an int before `str`. -/
def formatResult : PyNum → String
  | .pint n => pyIntStr n
  | .pfloat q => if q.isInt then pyIntStr q.toInt else pyFloatStr q
  | .pbool b => if b then "True" else "False"
  | .pcomplex => String.mk ['c']
  | .preal => String.mk ['r']

/-- The compute trigger `Calculator._calculate` as a function from the
display text to the new display text: on success the formatted result, on
any failure the literal `"Error"`. -/
def calculate (expr : String) : String :=
  match safe_eval expr with
  | .ok v => formatResult v
  | .error _ => "Error"

/-- Numeric value of a Python value in `ℚ`, when the model tracks it
(`complex` and untracked reals have none); `True`/`False` count as `1`/`0`
as in Python arithmetic. -/
def numValQ : PyNum → Option ℚ
  | .pint n => some n
  | .pfloat q => some q.toRat
  | .pbool b => some (if b then 1 else 0)
  | .pcomplex => none
  | .preal => none

theorem QQ.toRat_eq_zero_iff (q : QQ) : q.toRat = 0 ↔ q.num = 0 := by
  unfold QQ.toRat
  rw [div_eq_zero_iff]
  have hden : ((q.den : ℚ)) ≠ 0 := by
    exact_mod_cast q.denPos.ne'
  constructor
  · rintro (h | h)
    · exact_mod_cast h
    · exact absurd h hden
  · intro h
    left
    exact_mod_cast h

/-- An expression tree contains a construct outside the closed grammar: an
identifier reference, a call, a tuple, or a list display, possibly nested
below allowed operator nodes.  (Assignments cannot occur in an `eval`-mode
tree at all; `ast.parse(mode='eval')` raises `SyntaxError` on them.) -/
inductive ContainsDisallowed : Ast → Prop
  | nameHere (s : List Char) : ContainsDisallowed (.name s)
  | callHere (f : Ast) (args : List Ast) : ContainsDisallowed (.call f args)
  | tupleHere (es : List Ast) : ContainsDisallowed (.tuple es)
  | listHere (es : List Ast) : ContainsDisallowed (.listLit es)
  | inExpr {b : Ast} : ContainsDisallowed b → ContainsDisallowed (.expression b)
  | inLeft {l r : Ast} {op : BOp} :
      ContainsDisallowed l → ContainsDisallowed (.binOp l op r)
  | inRight {l r : Ast} {op : BOp} :
      ContainsDisallowed r → ContainsDisallowed (.binOp l op r)
  | inUnary {a : Ast} {op : UOp} :
      ContainsDisallowed a → ContainsDisallowed (.unaryOp op a)

theorem containsDisallowed_errors {a : Ast} (h : ContainsDisallowed a) :
    ∃ e, evalAst a = .error e := by
  induction h with
  | nameHere s => exact ⟨_, rfl⟩
  | callHere f args => exact ⟨_, rfl⟩
  | tupleHere es => exact ⟨_, rfl⟩
  | listHere es => exact ⟨_, rfl⟩
  | inExpr _ ih => exact ih
  | @inLeft l r op _ ih =>
    obtain ⟨e, he⟩ := ih
    cases op <;> simp [evalAst, he]
  | @inRight l r op _ ih =>
    obtain ⟨e, he⟩ := ih
    cases op <;> cases hl : evalAst l <;> simp [evalAst, hl, he]
  | @inUnary a op _ ih =>
    obtain ⟨e, he⟩ := ih
    cases op <;> simp [evalAst, he]

/-- An expression tree contains a constant that is not numeric: a string
literal or `None`, possibly nested below allowed operator nodes. -/
inductive ContainsBadConst : Ast → Prop
  | strHere (s : List Char) : ContainsBadConst (.constant (.cstr s))
  | noneHere : ContainsBadConst (.constant .cnone)
  | inExpr {b : Ast} : ContainsBadConst b → ContainsBadConst (.expression b)
  | inLeft {l r : Ast} {op : BOp} :
      ContainsBadConst l → ContainsBadConst (.binOp l op r)
  | inRight {l r : Ast} {op : BOp} :
      ContainsBadConst r → ContainsBadConst (.binOp l op r)
  | inUnary {a : Ast} {op : UOp} :
      ContainsBadConst a → ContainsBadConst (.unaryOp op a)

theorem containsBadConst_errors {a : Ast} (h : ContainsBadConst a) :
    ∃ e, evalAst a = .error e := by
  induction h with
  | strHere s => exact ⟨_, rfl⟩
  | noneHere => exact ⟨_, rfl⟩
  | inExpr _ ih => exact ih
  | @inLeft l r op _ ih =>
    obtain ⟨e, he⟩ := ih
    cases op <;> simp [evalAst, he]
  | @inRight l r op _ ih =>
    obtain ⟨e, he⟩ := ih
    cases op <;> cases hl : evalAst l <;> simp [evalAst, hl, he]
  | @inUnary a op _ ih =>
    obtain ⟨e, he⟩ := ih
    cases op <;> simp [evalAst, he]

/-- Claim C1: every input whose parse contains a construct outside the
closed grammar — an identifier reference, a function call, a tuple, a list
display, or an assignment — makes the Evaluator fail with a rejection
error; it never returns a (partially) evaluated numeric value.  The first
conjunct settles it for every tree containing such a node; the remaining
conjuncts evaluate the spec's example strings, assignments being already a
`SyntaxError` in `eval` mode. -/
theorem c1_disallowed_construct_rejected :
    (∀ a : Ast, ContainsDisallowed a → ∃ e, evalAst a = .error e) ∧
    safe_eval "x+1" = .error .unsupportedExpression ∧
    safe_eval "__import__(\"os\")" = .error .unsupportedExpression ∧
    safe_eval "1,2" = .error .unsupportedExpression ∧
    safe_eval "x=1" = .error .syntaxError :=
  ⟨fun _ h => containsDisallowed_errors h, rfl, rfl, rfl, rfl⟩

theorem c1_witness :
    ContainsDisallowed (.binOp (.name ['x']) .add (.constant (.cint 1))) ∧
    ∃ e, evalAst (.binOp (.name ['x']) .add (.constant (.cint 1))) = .error e :=
  ⟨.inLeft (.nameHere _),
    c1_disallowed_construct_rejected.1 _ (.inLeft (.nameHere _))⟩

theorem zeroAV_of_numValQ_zero {v : PyNum} (h : numValQ v = some 0) :
    zeroAV (av v) = true := by
  cases v with
  | pint n =>
    have : (n : ℚ) = 0 := by simpa [numValQ] using h
    have : n = 0 := by exact_mod_cast this
    simp [av, zeroAV, this]
  | pfloat q =>
    have : q.toRat = 0 := by simpa [numValQ] using h
    simp [av, zeroAV, (QQ.toRat_eq_zero_iff q).mp this]
  | pbool b =>
    cases b with
    | false => simp [av, zeroAV]
    | true =>
      exfalso
      simp [numValQ] at h
  | pcomplex => simp [numValQ] at h
  | preal => simp [numValQ] at h

theorem av_not_cpx_of_numValQ {v : PyNum} {q : ℚ} (h : numValQ v = some q) :
    av v ≠ .cpx := by
  cases v <;> simp [numValQ, av] at h ⊢

/-- Claim C2: every division or modulo whose right operand evaluates to
exact zero fails (division with `ZeroDivisionError`; modulo likewise
whenever the left operand is a tracked number — a complex left operand
fails with `TypeError` instead, matching Python), and the evaluator never
returns an infinite or NaN value (the model's value space has none).  The
final conjuncts evaluate the spec's two example strings. -/
theorem c2_division_modulo_by_zero_fails :
    (∀ (l r : Ast) (vl vr : PyNum), evalAst l = .ok vl → evalAst r = .ok vr →
      numValQ vr = some 0 →
      evalAst (.binOp l .div r) = .error .zeroDivision ∧
      (∃ e, evalAst (.binOp l .mod r) = .error e) ∧
      (∀ ql : ℚ, numValQ vl = some ql →
        evalAst (.binOp l .mod r) = .error .zeroDivision)) ∧
    safe_eval "5/0" = .error .zeroDivision ∧
    safe_eval "5%0" = .error .zeroDivision := by
  refine ⟨?_, rfl, rfl⟩
  intro l r vl vr hl hr hz
  have hzero := zeroAV_of_numValQ_zero hz
  have hrncpx := av_not_cpx_of_numValQ (v := vr) (q := 0) hz
  refine ⟨?_, ?_, ?_⟩
  · simp [evalAst, hl, hr, applyBinOp, divAV, hzero, Except.map]
  · cases hx : av vl with
    | cpx =>
      refine ⟨.typeError, ?_⟩
      simp [evalAst, hl, hr, applyBinOp, modAV, hx]
      cases hy : av vr <;> simp_all [modAV, Except.map]
    | i n =>
      refine ⟨.zeroDivision, ?_⟩
      simp [evalAst, hl, hr, applyBinOp, modAV, hx]
      cases hy : av vr <;> simp_all [modAV, zeroAV, Except.map]
    | f q =>
      refine ⟨.zeroDivision, ?_⟩
      simp [evalAst, hl, hr, applyBinOp, modAV, hx]
      cases hy : av vr <;> simp_all [modAV, zeroAV, Except.map]
    | real =>
      refine ⟨.zeroDivision, ?_⟩
      simp [evalAst, hl, hr, applyBinOp, modAV, hx]
      cases hy : av vr <;> simp_all [modAV, zeroAV, Except.map]
  · intro ql hql
    have hlncpx := av_not_cpx_of_numValQ (v := vl) (q := ql) hql
    cases hx : av vl <;> try (exact absurd hx hlncpx)
    all_goals
      simp [evalAst, hl, hr, applyBinOp, modAV, hx]
      cases hy : av vr <;> simp_all [modAV, zeroAV, Except.map]

theorem c2_witness :
    evalAst (.constant (.cint 5)) = .ok (.pint 5) ∧
    evalAst (.constant (.cint 0)) = .ok (.pint 0) ∧
    numValQ (.pint 0) = some 0 ∧
    evalAst (.binOp (.constant (.cint 5)) .div (.constant (.cint 0))) =
      .error .zeroDivision :=
  ⟨rfl, rfl, by norm_num [numValQ],
    (c2_division_modulo_by_zero_fails.1 (.constant (.cint 5))
      (.constant (.cint 0)) (.pint 5) (.pint 0) rfl rfl
      (by norm_num [numValQ])).1⟩

theorem sanitizeChars_cons (c : Char) (cs : List Char) :
    sanitizeChars (c :: cs) =
      (expandCaret (mapSymbol c)).filter (fun x => !(isPyWs x)) ++ sanitizeChars cs := by
  simp [sanitizeChars]

theorem sanitizeChars_ws_nil {cs : List Char} (h : ∀ c ∈ cs, isPyWs c = true) :
    sanitizeChars cs = [] := by
  induction cs with
  | nil => rfl
  | cons c cs ih =>
    rw [sanitizeChars_cons, ih (fun x hx => h x (List.mem_cons_of_mem _ hx))]
    have hc := h c (List.mem_cons_self _ _)
    have hcases : c = ' ' ∨ c = '\t' ∨ c = '\n' ∨ c = '\r' ∨ c = '\x0b' ∨ c = '\x0c' := by
      simp [isPyWs] at hc
      tauto
    rcases hcases with h | h | h | h | h | h <;> subst h <;> rfl

/-- Claim C4: every input string that is empty or consists only of
whitespace normalizes to the empty string and evaluates to the integer
`0`, not an error. -/
theorem c4_whitespace_input_evaluates_to_zero (s : String)
    (h : ∀ c ∈ s.data, isPyWs c = true) : safe_eval s = .ok (.pint 0) := by
  simp [safe_eval, sanitizeChars_ws_nil h]

theorem c4_witness :
    (∀ c ∈ (" \t ".data), isPyWs c = true) ∧ safe_eval " \t " = .ok (.pint 0) :=
  ⟨by decide, c4_whitespace_input_evaluates_to_zero " \t " (by decide)⟩

/-- Claim C5 counterexample: `"True"` parses to a constant that is not an
integer or decimal numeric constant, yet the Evaluator succeeds on it
rather than failing: Python's `bool` is a subclass of `int`, so the
`isinstance(value, (int, float))` guard of `_eval_ast` accepts it. -/
theorem c5_counterexample : safe_eval "True" = .ok (.pbool true) := rfl

/-- Claim C5 (amended): constants that are string literals or `None` are
rejected with the unsupported-constant error and collection literals are
rejected with the unsupported-expression error, but boolean literals
evaluate successfully to themselves (behaving as `1` and `0` in
arithmetic), since `bool` is an `int` subclass in Python. -/
theorem c5_nonnumeric_constants :
    (∀ a : Ast, ContainsBadConst a → ∃ e, evalAst a = .error e) ∧
    safe_eval "\"ab\"" = .error .unsupportedConstant ∧
    safe_eval "None" = .error .unsupportedConstant ∧
    safe_eval "[1,2]" = .error .unsupportedExpression ∧
    safe_eval "(1,2)" = .error .unsupportedExpression ∧
    safe_eval "True" = .ok (.pbool true) ∧
    safe_eval "False" = .ok (.pbool false) ∧
    safe_eval "True+1" = .ok (.pint 2) :=
  ⟨fun _ h => containsBadConst_errors h, rfl, rfl, rfl, rfl, rfl, rfl, rfl⟩

theorem c5_witness :
    ContainsBadConst (.unaryOp .usub (.constant .cnone)) ∧
    ∃ e, evalAst (.unaryOp .usub (.constant .cnone)) = .error e :=
  ⟨.inUnary .noneHere, c5_nonnumeric_constants.1 _ (.inUnary .noneHere)⟩

/-- Claim C6 counterexample: a negative base raised to a fractional
exponent does not fail; as in Python 3, the power returns a complex,
non-real value (`(-8)**0.5` succeeds and its result has no real numeric
value in the model). -/
theorem c6_counterexample :
    safe_eval "(-8)**0.5" = .ok .pcomplex ∧ numValQ .pcomplex = none :=
  ⟨rfl, rfl⟩

/-- Claim C6 (amended): the power operator supports negative and
fractional exponents; with an integral exponent it is exact (int base with
nonnegative int exponent stays int, a negative int exponent yields a float
reciprocal, zero base with negative exponent fails with the arithmetic
error), while a negative base with a fractional exponent succeeds with a
complex, non-real value instead of failing. -/
theorem c6_power_behavior :
    (∀ a b : ℤ, 0 ≤ b →
      applyBinOp .pow (.pint a) (.pint b) = .ok (.pint (a ^ b.toNat))) ∧
    (∀ a b : ℤ, b < 0 → a ≠ 0 →
      applyBinOp .pow (.pint a) (.pint b) = .ok (.pfloat ((QQ.ofInt a).zpow b))) ∧
    (∀ b : ℤ, b < 0 → applyBinOp .pow (.pint 0) (.pint b) = .error .zeroDivision) ∧
    (∀ qb qe : QQ, qb.num < 0 → qe.isInt = false →
      applyBinOp .pow (.pfloat qb) (.pfloat qe) = .ok .pcomplex) ∧
    (∃ q : QQ, safe_eval "2**-2" = .ok (.pfloat q) ∧ q.toRat = 1 / 4) := by
  refine ⟨?_, ?_, ?_, ?_, ?_⟩
  · intro a b hb
    simp [applyBinOp, av, powAV, hb, Except.map, unAV]
  · intro a b hb ha
    simp [applyBinOp, av, powAV, not_le.mpr hb, ha, Except.map, unAV]
  · intro b hb
    simp [applyBinOp, av, powAV, not_le.mpr hb, Except.map]
  · intro qb qe hneg hni
    simp [applyBinOp, av, powAV, floatPow, hni, hneg, Except.map, unAV]
  · exact ⟨⟨1, 4, by norm_num⟩, rfl, by norm_num [QQ.toRat]⟩

theorem c6_witness :
    applyBinOp .pow (.pint 2) (.pint 3) = .ok (.pint 8) ∧
    applyBinOp .pow (.pfloat ⟨-8, 1, one_pos⟩) (.pfloat ⟨1, 2, two_pos⟩) =
      .ok .pcomplex :=
  ⟨c6_power_behavior.1 2 3 (by norm_num),
    c6_power_behavior.2.2.2.1 ⟨-8, 1, one_pos⟩ ⟨1, 2, two_pos⟩
      (by norm_num) rfl⟩

/-- Claim C7: on a compute trigger the Shell writes back exactly one of
two things: on success the formatted numeric result (a float with
integral value is rendered as an int string, without a trailing
fractional indicator), on any failure the fixed literal `"Error"`,
discarding the invalid expression. -/
theorem c7_calculate_writes_result_or_error :
    (∀ s : String,
      (∃ v, safe_eval s = .ok v ∧ calculate s = formatResult v) ∨
      ((∃ e, safe_eval s = .error e) ∧ calculate s = "Error")) ∧
    (∀ q : QQ, q.isInt = true → formatResult (.pfloat q) = pyIntStr q.toInt) := by
  constructor
  · intro s
    cases h : safe_eval s with
    | ok v => exact .inl ⟨v, rfl, by simp [calculate, h]⟩
    | error e => exact .inr ⟨⟨e, rfl⟩, by simp [calculate, h]⟩
  · intro q hq
    simp [formatResult, hq]

theorem c7_witness :
    ((∃ v, safe_eval "x*" = .ok v ∧ calculate "x*" = formatResult v) ∨
      ((∃ e, safe_eval "x*" = .error e) ∧ calculate "x*" = "Error")) ∧
    QQ.isInt ⟨8, 2, two_pos⟩ = true ∧
    formatResult (.pfloat ⟨8, 2, two_pos⟩) = pyIntStr (QQ.toInt ⟨8, 2, two_pos⟩) :=
  ⟨c7_calculate_writes_result_or_error.1 "x*", rfl,
    c7_calculate_writes_result_or_error.2 ⟨8, 2, two_pos⟩ rfl⟩

/-- Claim C9: the Evaluator is deterministic and referentially
transparent: two evaluations of the same input string yield the same
outcome.  (`safe_eval` is a pure function of its input by construction of
the embedding, mirroring the source, which touches no state.) -/
theorem c9_evaluator_deterministic (s : String) (r1 r2 : Except PyErr PyNum)
    (h1 : safe_eval s = r1) (h2 : safe_eval s = r2) : r1 = r2 := by
  rw [← h1, ← h2]

theorem c9_witness : (Except.ok (.pint 4) : Except PyErr PyNum) = .ok (.pint 4) :=
  c9_evaluator_deterministic "2+2" _ _ rfl rfl

/-- Claim C10: a scientific-notation literal such as `"1e5"` is accepted by
the evaluator and yields the float `100000.0`, although the spec's stated
literal grammar has no exponent form. -/
theorem c10_scientific_notation_accepted :
    ∃ q : QQ, safe_eval "1e5" = .ok (.pfloat q) ∧ q.toRat = 100000 := by
  refine ⟨⟨100000, 1, one_pos⟩, rfl, by norm_num [QQ.toRat]⟩

/-- Multiplicative operators of the well-formed grammar (claim C3's term
level). -/
inductive MulOp where
  | mmul
  | mdiv
  | mmod

/-- AST operator of a multiplicative grammar operator. -/
def MulOp.toB : MulOp → BOp
  | .mmul => .mult
  | .mdiv => .div
  | .mmod => .mod

/-- Source character of a multiplicative grammar operator. -/
def MulOp.ch : MulOp → Char
  | .mmul => '*'
  | .mdiv => '/'
  | .mmod => '%'

/-- Additive operators of the well-formed grammar. -/
inductive AddOp where
  | aadd
  | asub

/-- AST operator of an additive grammar operator. -/
def AddOp.toB : AddOp → BOp
  | .aadd => .add
  | .asub => .sub

/-- Source character of an additive grammar operator. -/
def AddOp.ch : AddOp → Char
  | .aadd => '+'
  | .asub => '-'

/-- Well-formed arithmetic strings, as a grammar stratified by standard
operator precedence: level 0 atoms (integer and decimal literals,
parenthesized expressions), level 1 powers (`**`, right-associative, with
a factor as right operand, as in Python), level 2 signed factors, level 3
terms with level-5 left-associative `* / %` tails, level 4 expressions
with level-6 left-associative `+ -` tails.  Literal digit lists carry the
lexical side conditions of Python decimal literals. -/
inductive Gram : ℕ → Type where
  | num (ds : List ℕ) (h1 : ds ≠ []) (h2 : ∀ d ∈ ds, d < 10)
      (h3 : ds.headD 1 ≠ 0 ∨ digitsVal ds = 0) : Gram 0
  | dec (ip fp : List ℕ) (h1 : ip ≠ []) (h2 : fp ≠ [])
      (h3 : ∀ d ∈ ip, d < 10) (h4 : ∀ d ∈ fp, d < 10) : Gram 0
  | paren (e : Gram 4) : Gram 0
  | pw (a : Gram 0) : Gram 1
  | pwExp (a : Gram 0) (f : Gram 2) : Gram 1
  | fpow (p : Gram 1) : Gram 2
  | fneg (f : Gram 2) : Gram 2
  | fpos (f : Gram 2) : Gram 2
  | term (f : Gram 2) (t : Gram 5) : Gram 3
  | ttNil : Gram 5
  | ttCons (op : MulOp) (f : Gram 2) (t : Gram 5) : Gram 5
  | expr (t : Gram 3) (e : Gram 6) : Gram 4
  | etNil : Gram 6
  | etCons (op : AddOp) (t : Gram 3) (e : Gram 6) : Gram 6

/-- Characters of a digit list. -/
def digitChars (ds : List ℕ) : List Char := ds.map digitChar

/-- The string generated by a grammar derivation. -/
def yieldG : {n : ℕ} → Gram n → List Char
  | _, .num ds _ _ _ => digitChars ds
  | _, .dec ip fp _ _ _ _ => digitChars ip ++ '.' :: digitChars fp
  | _, .paren e => '(' :: (yieldG e ++ [')'])
  | _, .pw a => yieldG a
  | _, .pwExp a f => yieldG a ++ '*' :: '*' :: yieldG f
  | _, .fpow p => yieldG p
  | _, .fneg f => '-' :: yieldG f
  | _, .fpos f => '+' :: yieldG f
  | _, .term f t => yieldG f ++ yieldG t
  | _, .ttNil => []
  | _, .ttCons op f t => op.ch :: (yieldG f ++ yieldG t)
  | _, .expr t e => yieldG t ++ yieldG e
  | _, .etNil => []
  | _, .etCons op t e => op.ch :: (yieldG t ++ yieldG e)

/-- Type of the AST image of a derivation: tails are functions of the
expression built so far. -/
def ATy : ℕ → Type
  | 5 => Ast → Ast
  | 6 => Ast → Ast
  | _ => Ast

/-- The Python AST that `ast.parse` produces for a derivation's yield
(parentheses are transparent; tails attach left-associatively). -/
def astG : {n : ℕ} → Gram n → ATy n
  | _, .num ds _ _ _ => Ast.constant (.cint (digitsVal ds))
  | _, .dec ip fp _ _ _ _ => Ast.constant (.cfloat (fracVal ip fp))
  | _, .paren e => astG (n := 4) e
  | _, .pw a => astG (n := 0) a
  | _, .pwExp a f => Ast.binOp (astG (n := 0) a) .pow (astG (n := 2) f)
  | _, .fpow p => astG (n := 1) p
  | _, .fneg f => Ast.unaryOp .usub (astG f)
  | _, .fpos f => Ast.unaryOp .uadd (astG f)
  | _, .term f t => astG t (astG f)
  | _, .ttNil => fun acc => acc
  | _, .ttCons op f t => fun acc => astG t (Ast.binOp acc op.toB (astG f))
  | _, .expr t e => astG e (astG t)
  | _, .etNil => fun acc => acc
  | _, .etCons op t e => fun acc => astG e (Ast.binOp acc op.toB (astG t))

/-- Type of the mathematical denotation: tails fold a partial value. -/
def DTy : ℕ → Type
  | 5 => ℚ → Option ℚ
  | 6 => ℚ → Option ℚ
  | _ => Option ℚ

/-- Mathematical additive operators. -/
def mAddOp : AddOp → ℚ → ℚ → ℚ
  | .aadd, a, b => a + b
  | .asub, a, b => a - b

/-- Mathematical multiplicative operators: exact product, exact division
(undefined on a zero divisor), and the floor-convention modulo the spec
describes (sign follows the divisor), undefined on a zero divisor. -/
def mMulOp : MulOp → ℚ → ℚ → Option ℚ
  | .mmul, a, b => some (a * b)
  | .mdiv, a, b => if b = 0 then none else some (a / b)
  | .mmod, a, b => if b = 0 then none else some (a - b * (⌊a / b⌋ : ℤ))

/-- Mathematical power: defined for integral exponents (except a zero base
with a negative exponent); a non-integral exponent has in general no
rational value and is outside the mathematical model. -/
def mPow (a b : ℚ) : Option ℚ :=
  if b.den = 1 then (if a = 0 ∧ b.num < 0 then none else some (a ^ b.num)) else none

/-- Modelled from the spec: the "mathematically correct value under
standard operator precedence and associativity" of a well-formed
arithmetic string, defined compositionally over the precedence-stratified
derivation with exact rational arithmetic, independent of the evaluator. -/
def mden : {n : ℕ} → Gram n → DTy n
  | _, .num ds _ _ _ => some (digitsVal ds : ℚ)
  | _, .dec ip fp _ _ _ _ =>
    some ((digitsVal ip : ℚ) + (digitsVal fp : ℚ) / 10 ^ fp.length)
  | _, .paren e => mden (n := 4) e
  | _, .pw a => mden (n := 0) a
  | _, .pwExp a f =>
    (mden (n := 0) a).bind (fun x => (mden (n := 2) f).bind (fun y => mPow x y))
  | _, .fpow p => mden (n := 1) p
  | _, .fneg f => (mden f).map (fun x => -x)
  | _, .fpos f => mden f
  | _, .term f t => (mden f).bind (fun x => mden t x)
  | _, .ttNil => fun acc => some acc
  | _, .ttCons op f t => fun acc =>
    (mden f).bind (fun x => (mMulOp op acc x).bind (fun y => mden t y))
  | _, .expr t e => (mden t).bind (fun x => mden e x)
  | _, .etNil => fun acc => some acc
  | _, .etCons op t e => fun acc => (mden t).bind (fun x => mden e (mAddOp op acc x))

theorem QQ.den_ne (q : QQ) : ((q.den : ℚ)) ≠ 0 := by
  exact_mod_cast q.denPos.ne'

theorem QQ.toRat_ofInt (n : ℤ) : (QQ.ofInt n).toRat = (n : ℚ) := by
  simp [QQ.toRat, QQ.ofInt]

theorem QQ.toRat_add (a b : QQ) : (a.add b).toRat = a.toRat + b.toRat := by
  unfold QQ.toRat QQ.add
  have ha := a.den_ne
  have hb := b.den_ne
  push_cast
  field_simp
  try ring

theorem QQ.toRat_sub (a b : QQ) : (a.sub b).toRat = a.toRat - b.toRat := by
  unfold QQ.toRat QQ.sub
  have ha := a.den_ne
  have hb := b.den_ne
  push_cast
  field_simp
  try ring

theorem QQ.toRat_mul (a b : QQ) : (a.mul b).toRat = a.toRat * b.toRat := by
  unfold QQ.toRat QQ.mul
  push_cast
  rw [div_mul_div_comm]

theorem QQ.toRat_neg (a : QQ) : a.neg.toRat = -a.toRat := by
  unfold QQ.toRat QQ.neg
  push_cast
  rw [neg_div]

theorem QQ.toRat_inv (a : QQ) (h : a.num ≠ 0) : a.inv.toRat = a.toRat⁻¹ := by
  unfold QQ.inv
  rcases lt_trichotomy a.num 0 with hn | hn | hn
  · rw [dif_neg (by omega), dif_pos hn]
    unfold QQ.toRat
    rw [inv_div]
    push_cast
    rw [neg_div_neg_eq]
  · exact absurd hn h
  · rw [dif_pos hn]
    unfold QQ.toRat
    rw [inv_div]

theorem QQ.toRat_div (a b : QQ) (h : b.num ≠ 0) :
    (a.div b).toRat = a.toRat / b.toRat := by
  unfold QQ.div
  rw [QQ.toRat_mul, QQ.toRat_inv b h, div_eq_mul_inv]

theorem int_fmod_bounds_neg (a : ℤ) {b : ℤ} (hb : b < 0) :
    b < a.fmod b ∧ a.fmod b ≤ 0 := by
  obtain ⟨n, rfl⟩ : ∃ n : ℕ, b = Int.negSucc n := by
    refine ⟨(-b - 1).toNat, ?_⟩
    rw [Int.negSucc_eq]
    omega
  have hns : Int.negSucc n = -((n : ℤ) + 1) := Int.negSucc_eq n
  cases a with
  | ofNat m =>
    cases m with
    | zero =>
      rw [show Int.fmod (Int.ofNat 0) (Int.negSucc n) = 0 from rfl, hns]
      omega
    | succ m =>
      rw [show Int.fmod (Int.ofNat (m + 1)) (Int.negSucc n) =
        Int.subNatNat (m % (n + 1)) n from rfl]
      rw [Int.subNatNat_eq_coe, hns]
      have hlt := Nat.mod_lt m (y := n + 1) (by omega)
      omega
  | negSucc m =>
    rw [show Int.fmod (Int.negSucc m) (Int.negSucc n) =
      -(Int.ofNat ((m + 1) % (n + 1))) from rfl]
    rw [hns]
    have hlt := Nat.mod_lt (m + 1) (y := n + 1) (by omega)
    have hc : (Int.ofNat ((m + 1) % (n + 1))) = ((m + 1) % (n + 1) : ℕ) := rfl
    omega

theorem int_fdiv_eq_floor (m : ℤ) {n : ℤ} (hn : n ≠ 0) :
    Int.fdiv m n = ⌊(m : ℚ) / (n : ℚ)⌋ := by
  have hmn := Int.fmod_add_fdiv m n
  symm
  rw [Int.floor_eq_iff]
  have hcomm : n * Int.fdiv m n = Int.fdiv m n * n := mul_comm _ _
  have hexp : (Int.fdiv m n + 1) * n = Int.fdiv m n * n + n := by ring
  rcases lt_or_gt_of_ne hn with hneg | hpos
  · obtain ⟨h1, h2⟩ := int_fmod_bounds_neg m hneg
    have hnQ : ((n : ℚ)) < 0 := by exact_mod_cast hneg
    constructor
    · rw [le_div_iff_of_neg hnQ]
      exact_mod_cast (by linarith : m ≤ Int.fdiv m n * n)
    · rw [div_lt_iff_of_neg hnQ]
      exact_mod_cast (by linarith : ((Int.fdiv m n + 1) * n : ℤ) < m)
  · have h1 := Int.fmod_nonneg' m hpos
    have h2 := Int.fmod_lt_of_pos m hpos
    have hnQ : (0 : ℚ) < (n : ℚ) := by exact_mod_cast hpos
    constructor
    · rw [le_div_iff₀ hnQ]
      exact_mod_cast (by linarith : Int.fdiv m n * n ≤ m)
    · rw [div_lt_iff₀ hnQ]
      exact_mod_cast (by linarith : m < (Int.fdiv m n + 1) * n)

theorem int_fmod_eq_rat (m : ℤ) {n : ℤ} (hn : n ≠ 0) :
    ((Int.fmod m n : ℤ) : ℚ) = (m : ℚ) - (n : ℚ) * ⌊(m : ℚ) / (n : ℚ)⌋ := by
  have hmn := Int.fmod_add_fdiv m n
  rw [← int_fdiv_eq_floor m hn]
  have h2 : Int.fmod m n = m - n * Int.fdiv m n := by omega
  rw [h2]
  push_cast
  ring

theorem QQ.floorQ_eq (q : QQ) : q.floorQ = ⌊q.toRat⌋ := by
  unfold QQ.floorQ QQ.toRat
  exact int_fdiv_eq_floor q.num q.denPos.ne'

theorem QQ.toRat_fmod (a b : QQ) (h : b.num ≠ 0) :
    (a.fmod b).toRat = a.toRat - b.toRat * ⌊a.toRat / b.toRat⌋ := by
  unfold QQ.fmod
  rw [QQ.toRat_sub, QQ.toRat_mul, QQ.toRat_ofInt, QQ.floorQ_eq, QQ.toRat_div a b h]

theorem QQ.isInt_eq_true_iff (q : QQ) : q.isInt = true ↔ q.den ∣ q.num := by
  rw [QQ.isInt, decide_eq_true_eq]
  exact Int.dvd_iff_emod_eq_zero.symm

theorem QQ.toRat_of_isInt {q : QQ} (h : q.isInt = true) : q.toRat = (q.toInt : ℚ) := by
  obtain ⟨k, hk⟩ := (QQ.isInt_eq_true_iff q).mp h
  unfold QQ.toRat QQ.toInt
  rw [hk, Int.mul_ediv_cancel_left _ q.denPos.ne']
  push_cast
  rw [mul_comm, mul_div_assoc, div_self q.den_ne, mul_one]

theorem QQ.isInt_iff_den_one (q : QQ) : q.isInt = true ↔ q.toRat.den = 1 := by
  constructor
  · intro h
    rw [QQ.toRat_of_isInt h]
    exact Rat.den_intCast _
  · intro h
    rw [QQ.isInt_eq_true_iff]
    have h2 : q.toRat = (q.toRat.num : ℚ) := by
      conv_lhs => rw [← Rat.num_div_den q.toRat]
      rw [h]
      simp
    have h3 : (q.num : ℚ) = (q.toRat.num : ℚ) * (q.den : ℚ) := by
      have h4 : (q.num : ℚ) / (q.den : ℚ) = (q.toRat.num : ℚ) := by
        rw [← h2]
        rfl
      exact (div_eq_iff q.den_ne).mp h4
    have h5 : q.num = q.toRat.num * q.den := by exact_mod_cast h3
    exact ⟨q.toRat.num, by rw [h5]; ring⟩

theorem QQ.num_toRat_of_isInt {q : QQ} (h : q.isInt = true) :
    q.toRat.num = q.toInt := by
  rw [QQ.toRat_of_isInt h]
  exact Rat.num_intCast _

theorem QQ.toRat_powNat (q : QQ) (k : ℕ) : (q.powNat k).toRat = q.toRat ^ k := by
  unfold QQ.toRat QQ.powNat
  push_cast
  rw [div_pow]

theorem QQ.toRat_zpow (q : QQ) (n : ℤ) (h : q.num ≠ 0 ∨ 0 ≤ n) :
    (q.zpow n).toRat = q.toRat ^ n := by
  unfold QQ.zpow
  rcases le_or_lt 0 n with hn | hn
  · rw [if_pos hn, QQ.toRat_powNat, ← zpow_natCast, Int.toNat_of_nonneg hn]
  · have hq : q.num ≠ 0 := h.resolve_right (by omega)
    rw [if_neg (by omega), QQ.toRat_powNat, QQ.toRat_inv q hq, ← zpow_natCast,
      Int.toNat_of_nonneg (by omega : (0 : ℤ) ≤ -n), inv_zpow, ← zpow_neg, neg_neg]

theorem QQ.toRat_ne_zero_iff (q : QQ) : q.toRat ≠ 0 ↔ q.num ≠ 0 :=
  not_congr (QQ.toRat_eq_zero_iff q)

/-- A Python value represents a rational number: it is exactly the int or
the float with that value (the only kinds produced on well-formed
arithmetic input). -/
def RepP (v : PyNum) (x : ℚ) : Prop :=
  (∃ n : ℤ, v = .pint n ∧ (n : ℚ) = x) ∨ (∃ q : QQ, v = .pfloat q ∧ q.toRat = x)

theorem fracVal_toRat (ip fp : List ℕ) :
    (fracVal ip fp).toRat = (digitsVal ip : ℚ) + (digitsVal fp : ℚ) / 10 ^ fp.length := by
  unfold fracVal QQ.toRat
  have h10 : ((10 : ℚ)) ^ fp.length ≠ 0 := by positivity
  push_cast
  field_simp

theorem addOp_correct {vl vr : PyNum} {a b : ℚ} (hl : RepP vl a) (hr : RepP vr b) :
    ∃ v, applyBinOp .add vl vr = .ok v ∧ RepP v (a + b) := by
  rcases hl with ⟨m, rfl, hm⟩ | ⟨p, rfl, hp⟩ <;>
    rcases hr with ⟨k, rfl, hk⟩ | ⟨r, rfl, hr2⟩
  · exact ⟨_, rfl, .inl ⟨m + k, rfl, by push_cast; rw [hm, hk]⟩⟩
  · exact ⟨_, rfl, .inr ⟨_, rfl, by
      simp only [qOf, QQ.toRat_add, QQ.toRat_ofInt, hm, hr2]⟩⟩
  · exact ⟨_, rfl, .inr ⟨_, rfl, by
      simp only [qOf, QQ.toRat_add, QQ.toRat_ofInt, hp, hk]⟩⟩
  · exact ⟨_, rfl, .inr ⟨_, rfl, by
      simp only [qOf, QQ.toRat_add, hp, hr2]⟩⟩

theorem subOp_correct {vl vr : PyNum} {a b : ℚ} (hl : RepP vl a) (hr : RepP vr b) :
    ∃ v, applyBinOp .sub vl vr = .ok v ∧ RepP v (a - b) := by
  rcases hl with ⟨m, rfl, hm⟩ | ⟨p, rfl, hp⟩ <;>
    rcases hr with ⟨k, rfl, hk⟩ | ⟨r, rfl, hr2⟩
  · exact ⟨_, rfl, .inl ⟨m - k, rfl, by push_cast; rw [hm, hk]⟩⟩
  · exact ⟨_, rfl, .inr ⟨_, rfl, by
      simp only [qOf, QQ.toRat_sub, QQ.toRat_ofInt, hm, hr2]⟩⟩
  · exact ⟨_, rfl, .inr ⟨_, rfl, by
      simp only [qOf, QQ.toRat_sub, QQ.toRat_ofInt, hp, hk]⟩⟩
  · exact ⟨_, rfl, .inr ⟨_, rfl, by
      simp only [qOf, QQ.toRat_sub, hp, hr2]⟩⟩

theorem mulOp_correct {vl vr : PyNum} {a b : ℚ} (hl : RepP vl a) (hr : RepP vr b) :
    ∃ v, applyBinOp .mult vl vr = .ok v ∧ RepP v (a * b) := by
  rcases hl with ⟨m, rfl, hm⟩ | ⟨p, rfl, hp⟩ <;>
    rcases hr with ⟨k, rfl, hk⟩ | ⟨r, rfl, hr2⟩
  · exact ⟨_, rfl, .inl ⟨m * k, rfl, by push_cast; rw [hm, hk]⟩⟩
  · exact ⟨_, rfl, .inr ⟨_, rfl, by
      simp only [qOf, QQ.toRat_mul, QQ.toRat_ofInt, hm, hr2]⟩⟩
  · exact ⟨_, rfl, .inr ⟨_, rfl, by
      simp only [qOf, QQ.toRat_mul, QQ.toRat_ofInt, hp, hk]⟩⟩
  · exact ⟨_, rfl, .inr ⟨_, rfl, by
      simp only [qOf, QQ.toRat_mul, hp, hr2]⟩⟩

theorem divOp_correct {vl vr : PyNum} {a b : ℚ} (hl : RepP vl a) (hr : RepP vr b)
    (hb : b ≠ 0) : ∃ v, applyBinOp .div vl vr = .ok v ∧ RepP v (a / b) := by
  rcases hl with ⟨m, rfl, hm⟩ | ⟨p, rfl, hp⟩ <;>
    rcases hr with ⟨k, rfl, hk⟩ | ⟨r, rfl, hr2⟩
  · have hk0 : ¬(k = 0) := fun h => hb (by rw [← hk, h]; norm_num)
    have h1 : applyBinOp .div (.pint m) (.pint k) =
        .ok (.pfloat (QQ.div (QQ.ofInt m) (QQ.ofInt k))) := by
      simp [applyBinOp, divAV, av, zeroAV, hk0, Except.map, unAV, qOf]
    refine ⟨_, h1, .inr ⟨_, rfl, ?_⟩⟩
    rw [QQ.toRat_div _ _ (by simpa [QQ.ofInt] using hk0), QQ.toRat_ofInt,
      QQ.toRat_ofInt, hm, hk]
  · have hr0 : ¬(r.num = 0) := fun h =>
      hb (by rw [← hr2]; exact (QQ.toRat_eq_zero_iff r).mpr h)
    have h1 : applyBinOp .div (.pint m) (.pfloat r) =
        .ok (.pfloat (QQ.div (QQ.ofInt m) r)) := by
      simp [applyBinOp, divAV, av, zeroAV, hr0, Except.map, unAV, qOf]
    refine ⟨_, h1, .inr ⟨_, rfl, ?_⟩⟩
    rw [QQ.toRat_div _ _ hr0, QQ.toRat_ofInt, hm, hr2]
  · have hk0 : ¬(k = 0) := fun h => hb (by rw [← hk, h]; norm_num)
    have h1 : applyBinOp .div (.pfloat p) (.pint k) =
        .ok (.pfloat (QQ.div p (QQ.ofInt k))) := by
      simp [applyBinOp, divAV, av, zeroAV, hk0, Except.map, unAV, qOf]
    refine ⟨_, h1, .inr ⟨_, rfl, ?_⟩⟩
    rw [QQ.toRat_div _ _ (by simpa [QQ.ofInt] using hk0), QQ.toRat_ofInt, hp, hk]
  · have hr0 : ¬(r.num = 0) := fun h =>
      hb (by rw [← hr2]; exact (QQ.toRat_eq_zero_iff r).mpr h)
    have h1 : applyBinOp .div (.pfloat p) (.pfloat r) =
        .ok (.pfloat (QQ.div p r)) := by
      simp [applyBinOp, divAV, av, zeroAV, hr0, Except.map, unAV, qOf]
    refine ⟨_, h1, .inr ⟨_, rfl, ?_⟩⟩
    rw [QQ.toRat_div _ _ hr0, hp, hr2]

theorem modOp_correct {vl vr : PyNum} {a b : ℚ} (hl : RepP vl a) (hr : RepP vr b)
    (hb : b ≠ 0) :
    ∃ v, applyBinOp .mod vl vr = .ok v ∧ RepP v (a - b * ⌊a / b⌋) := by
  rcases hl with ⟨m, rfl, hm⟩ | ⟨p, rfl, hp⟩ <;>
    rcases hr with ⟨k, rfl, hk⟩ | ⟨r, rfl, hr2⟩
  · have hk0 : ¬(k = 0) := fun h => hb (by rw [← hk, h]; norm_num)
    have h1 : applyBinOp .mod (.pint m) (.pint k) = .ok (.pint (Int.fmod m k)) := by
      simp [applyBinOp, modAV, av, zeroAV, hk0, Except.map, unAV]
    refine ⟨_, h1, .inl ⟨Int.fmod m k, rfl, ?_⟩⟩
    rw [int_fmod_eq_rat m hk0, hm, hk]
  · have hr0 : ¬(r.num = 0) := fun h =>
      hb (by rw [← hr2]; exact (QQ.toRat_eq_zero_iff r).mpr h)
    have h1 : applyBinOp .mod (.pint m) (.pfloat r) =
        .ok (.pfloat (QQ.fmod (QQ.ofInt m) r)) := by
      simp [applyBinOp, modAV, av, zeroAV, hr0, Except.map, unAV, qOf]
    refine ⟨_, h1, .inr ⟨_, rfl, ?_⟩⟩
    rw [QQ.toRat_fmod _ _ hr0, QQ.toRat_ofInt, hm, hr2]
  · have hk0 : ¬(k = 0) := fun h => hb (by rw [← hk, h]; norm_num)
    have h1 : applyBinOp .mod (.pfloat p) (.pint k) =
        .ok (.pfloat (QQ.fmod p (QQ.ofInt k))) := by
      simp [applyBinOp, modAV, av, zeroAV, hk0, Except.map, unAV, qOf]
    refine ⟨_, h1, .inr ⟨_, rfl, ?_⟩⟩
    rw [QQ.toRat_fmod _ _ (by simpa [QQ.ofInt] using hk0), QQ.toRat_ofInt, hp, hk]
  · have hr0 : ¬(r.num = 0) := fun h =>
      hb (by rw [← hr2]; exact (QQ.toRat_eq_zero_iff r).mpr h)
    have h1 : applyBinOp .mod (.pfloat p) (.pfloat r) =
        .ok (.pfloat (QQ.fmod p r)) := by
      simp [applyBinOp, modAV, av, zeroAV, hr0, Except.map, unAV, qOf]
    refine ⟨_, h1, .inr ⟨_, rfl, ?_⟩⟩
    rw [QQ.toRat_fmod _ _ hr0, hp, hr2]

theorem mPow_facts {a b c : ℚ} (hp : mPow a b = some c) :
    b.den = 1 ∧ ¬(a = 0 ∧ b.num < 0) ∧ c = a ^ b.num := by
  by_cases hden : b.den = 1
  · by_cases hcond : a = 0 ∧ b.num < 0
    · simp [mPow, hden, hcond] at hp
    · refine ⟨hden, hcond, ?_⟩
      rw [mPow, if_pos hden, if_neg hcond] at hp
      exact (Option.some.inj hp).symm
  · simp [mPow, hden] at hp

theorem floatPow_correct {p r : QQ} {a b c : ℚ} (hp : p.toRat = a) (hr : r.toRat = b)
    (h : mPow a b = some c) : ∃ q : QQ, floatPow p r = .ok (.f q) ∧ q.toRat = c := by
  obtain ⟨hden, hcond, hc⟩ := mPow_facts h
  have hrInt : r.isInt = true := (QQ.isInt_iff_den_one r).mpr (by rw [hr]; exact hden)
  have hti : r.toInt = b.num := by rw [← QQ.num_toRat_of_isInt hrInt, hr]
  have hpz : p.num = 0 ↔ a = 0 := by rw [← hp, ← QQ.toRat_eq_zero_iff]
  have hnotand : ¬(p.num = 0 ∧ r.toInt < 0) := by rw [hpz, hti]; exact hcond
  have hside : p.num ≠ 0 ∨ 0 ≤ r.toInt := by
    rcases not_and_or.mp hnotand with h1 | h1
    · exact .inl h1
    · exact .inr (by omega)
  refine ⟨p.zpow r.toInt, ?_, ?_⟩
  · unfold floatPow
    rw [if_pos hrInt, if_neg hnotand]
  · rw [QQ.toRat_zpow _ _ hside, hp, hti, hc]

theorem powOp_correct {vl vr : PyNum} {a b c : ℚ} (hl : RepP vl a) (hr : RepP vr b)
    (hpow : mPow a b = some c) :
    ∃ v, applyBinOp .pow vl vr = .ok v ∧ RepP v c := by
  obtain ⟨hden, hcond, hc⟩ := mPow_facts hpow
  rcases hl with ⟨m, rfl, hm⟩ | ⟨p, rfl, hp⟩ <;>
    rcases hr with ⟨k, rfl, hk⟩ | ⟨r, rfl, hr2⟩
  · have hknum : b.num = k := by rw [← hk]; exact Rat.num_intCast k
    rcases le_or_lt 0 k with hk0 | hk0
    · have h1 : applyBinOp .pow (.pint m) (.pint k) = .ok (.pint (m ^ k.toNat)) := by
        simp [applyBinOp, powAV, av, hk0, Except.map, unAV]
      refine ⟨_, h1, .inl ⟨m ^ k.toNat, rfl, ?_⟩⟩
      rw [hc, hknum, ← hm]
      conv_rhs => rw [← Int.toNat_of_nonneg hk0, zpow_natCast]
      push_cast
      rfl
    · have hm0 : ¬(m = 0) := by
        intro h0
        exact hcond ⟨by rw [← hm, h0]; norm_num, by omega⟩
      have h1 : applyBinOp .pow (.pint m) (.pint k) =
          .ok (.pfloat ((QQ.ofInt m).zpow k)) := by
        simp [applyBinOp, powAV, av, not_le.mpr hk0, hm0, Except.map, unAV]
      refine ⟨_, h1, .inr ⟨_, rfl, ?_⟩⟩
      rw [QQ.toRat_zpow _ _ (.inl (by simpa [QQ.ofInt] using hm0)), QQ.toRat_ofInt,
        hm, hc, hknum]
  · obtain ⟨q, hq, hqc⟩ := floatPow_correct ((QQ.toRat_ofInt m).trans hm) hr2 hpow
    have h1 : applyBinOp .pow (.pint m) (.pfloat r) = .ok (.pfloat q) := by
      simp [applyBinOp, powAV, av, Except.map, hq, unAV]
    exact ⟨_, h1, .inr ⟨_, rfl, hqc⟩⟩
  · obtain ⟨q, hq, hqc⟩ := floatPow_correct hp ((QQ.toRat_ofInt k).trans hk) hpow
    have h1 : applyBinOp .pow (.pfloat p) (.pint k) = .ok (.pfloat q) := by
      simp [applyBinOp, powAV, av, Except.map, hq, unAV]
    exact ⟨_, h1, .inr ⟨_, rfl, hqc⟩⟩
  · obtain ⟨q, hq, hqc⟩ := floatPow_correct hp hr2 hpow
    have h1 : applyBinOp .pow (.pfloat p) (.pfloat r) = .ok (.pfloat q) := by
      simp [applyBinOp, powAV, av, Except.map, hq, unAV]
    exact ⟨_, h1, .inr ⟨_, rfl, hqc⟩⟩

theorem usubOp_correct {v : PyNum} {a : ℚ} (h : RepP v a) :
    RepP (applyUnaryOp .usub v) (-a) := by
  rcases h with ⟨m, rfl, hm⟩ | ⟨p, rfl, hp⟩
  · exact .inl ⟨-m, rfl, by push_cast; rw [hm]⟩
  · exact .inr ⟨p.neg, rfl, by rw [QQ.toRat_neg, hp]⟩

theorem uaddOp_correct {v : PyNum} {a : ℚ} (h : RepP v a) :
    RepP (applyUnaryOp .uadd v) a := by
  rcases h with ⟨m, rfl, hm⟩ | ⟨p, rfl, hp⟩
  · exact .inl ⟨m, rfl, hm⟩
  · exact .inr ⟨p, rfl, hp⟩

theorem evalAst_binOp_eq {l r : Ast} {vl vr : PyNum} {op : BOp}
    (hl : evalAst l = .ok vl) (hr : evalAst r = .ok vr) :
    evalAst (.binOp l op r) = applyBinOp op vl vr := by
  cases op <;> simp [evalAst, hl, hr, applyBinOp]

theorem evalAst_unaryOp_eq {a : Ast} {v : PyNum} {op : UOp} (h : evalAst a = .ok v) :
    evalAst (.unaryOp op a) = .ok (applyUnaryOp op v) := by
  cases op <;> simp [evalAst, h, applyUnaryOp]

/-- Statement of evaluator correctness at each grammar level: whenever the
mathematical denotation is defined, evaluating the corresponding AST
succeeds with a value representing it; tails are stated relative to an
accumulated left operand. -/
def EvalStmt : (n : ℕ) → Gram n → Prop
  | 0, g => ∀ c : ℚ, mden (n := 0) g = some c →
      ∃ v, evalAst (astG (n := 0) g) = .ok v ∧ RepP v c
  | 1, g => ∀ c : ℚ, mden (n := 1) g = some c →
      ∃ v, evalAst (astG (n := 1) g) = .ok v ∧ RepP v c
  | 2, g => ∀ c : ℚ, mden (n := 2) g = some c →
      ∃ v, evalAst (astG (n := 2) g) = .ok v ∧ RepP v c
  | 3, g => ∀ c : ℚ, mden (n := 3) g = some c →
      ∃ v, evalAst (astG (n := 3) g) = .ok v ∧ RepP v c
  | 4, g => ∀ c : ℚ, mden (n := 4) g = some c →
      ∃ v, evalAst (astG (n := 4) g) = .ok v ∧ RepP v c
  | 5, g => ∀ (accA : Ast) (va : PyNum) (xa : ℚ),
      evalAst accA = .ok va → RepP va xa →
      ∀ c : ℚ, mden (n := 5) g xa = some c →
      ∃ v, evalAst (astG (n := 5) g accA) = .ok v ∧ RepP v c
  | 6, g => ∀ (accA : Ast) (va : PyNum) (xa : ℚ),
      evalAst accA = .ok va → RepP va xa →
      ∀ c : ℚ, mden (n := 6) g xa = some c →
      ∃ v, evalAst (astG (n := 6) g accA) = .ok v ∧ RepP v c
  | _ + 7, _ => True

theorem evalG_correct : ∀ {n : ℕ} (g : Gram n), EvalStmt n g := by
  intro n g
  induction g with
  | num ds h1 h2 h3 =>
    intro c hc
    simp only [mden] at hc
    obtain rfl := Option.some.inj hc
    exact ⟨_, rfl, .inl ⟨(digitsVal ds : ℤ), rfl, by push_cast; rfl⟩⟩
  | dec ip fp h1 h2 h3 h4 =>
    intro c hc
    simp only [mden] at hc
    obtain rfl := Option.some.inj hc
    exact ⟨_, rfl, .inr ⟨fracVal ip fp, rfl, fracVal_toRat ip fp⟩⟩
  | paren e ih => exact ih
  | pw a ih => exact ih
  | pwExp a f iha ihf =>
    intro c hc
    simp only [mden] at hc
    rw [Option.bind_eq_some] at hc
    obtain ⟨x, hx, hc⟩ := hc
    rw [Option.bind_eq_some] at hc
    obtain ⟨y, hy, hc⟩ := hc
    obtain ⟨va, hva, hrepa⟩ := iha x hx
    obtain ⟨vf, hvf, hrepf⟩ := ihf y hy
    obtain ⟨v, happ, hrep⟩ := powOp_correct hrepa hrepf hc
    exact ⟨v, (evalAst_binOp_eq hva hvf).trans happ, hrep⟩
  | fpow p ih => exact ih
  | fneg f ih =>
    intro c hc
    simp only [mden] at hc
    rw [Option.map_eq_some'] at hc
    obtain ⟨x, hx, hc⟩ := hc
    obtain ⟨v, hv, hrep⟩ := ih x hx
    subst hc
    exact ⟨_, evalAst_unaryOp_eq hv, usubOp_correct hrep⟩
  | fpos f ih =>
    intro c hc
    simp only [mden] at hc
    obtain ⟨v, hv, hrep⟩ := ih c hc
    exact ⟨_, evalAst_unaryOp_eq hv, uaddOp_correct hrep⟩
  | term f t ihf iht =>
    intro c hc
    simp only [mden] at hc
    rw [Option.bind_eq_some] at hc
    obtain ⟨x, hx, hc⟩ := hc
    obtain ⟨vf, hvf, hrepf⟩ := ihf x hx
    exact iht (astG (n := 2) f) vf x hvf hrepf c hc
  | ttNil =>
    intro accA va xa hacc hrep c hc
    simp only [mden] at hc
    obtain rfl := Option.some.inj hc
    exact ⟨va, hacc, hrep⟩
  | ttCons op f t ihf iht =>
    intro accA va xa hacc hrep c hc
    simp only [mden] at hc
    rw [Option.bind_eq_some] at hc
    obtain ⟨x, hx, hc⟩ := hc
    rw [Option.bind_eq_some] at hc
    obtain ⟨y, hy, hc⟩ := hc
    obtain ⟨vf, hvf, hrepf⟩ := ihf x hx
    cases op with
    | mmul =>
      simp only [mMulOp, Option.some.injEq] at hy
      subst hy
      obtain ⟨v, happ, hrep2⟩ := mulOp_correct hrep hrepf
      exact iht _ v _ ((evalAst_binOp_eq hacc hvf).trans happ) hrep2 c hc
    | mdiv =>
      by_cases hx0 : x = 0
      · simp [mMulOp, hx0] at hy
      · simp only [mMulOp, if_neg hx0, Option.some.injEq] at hy
        subst hy
        obtain ⟨v, happ, hrep2⟩ := divOp_correct hrep hrepf hx0
        exact iht _ v _ ((evalAst_binOp_eq hacc hvf).trans happ) hrep2 c hc
    | mmod =>
      by_cases hx0 : x = 0
      · simp [mMulOp, hx0] at hy
      · simp only [mMulOp, if_neg hx0, Option.some.injEq] at hy
        subst hy
        obtain ⟨v, happ, hrep2⟩ := modOp_correct hrep hrepf hx0
        exact iht _ v _ ((evalAst_binOp_eq hacc hvf).trans happ) hrep2 c hc
  | expr t e iht ihe =>
    intro c hc
    simp only [mden] at hc
    rw [Option.bind_eq_some] at hc
    obtain ⟨x, hx, hc⟩ := hc
    obtain ⟨vt, hvt, hrept⟩ := iht x hx
    exact ihe (astG (n := 3) t) vt x hvt hrept c hc
  | etNil =>
    intro accA va xa hacc hrep c hc
    simp only [mden] at hc
    obtain rfl := Option.some.inj hc
    exact ⟨va, hacc, hrep⟩
  | etCons op t e iht ihe =>
    intro accA va xa hacc hrep c hc
    simp only [mden] at hc
    rw [Option.bind_eq_some] at hc
    obtain ⟨x, hx, hc⟩ := hc
    obtain ⟨vt, hvt, hrept⟩ := iht x hx
    cases op with
    | aadd =>
      obtain ⟨v, happ, hrep2⟩ := addOp_correct hrep hrept
      exact ihe _ v _ ((evalAst_binOp_eq hacc hvt).trans happ) hrep2 c hc
    | asub =>
      obtain ⟨v, happ, hrep2⟩ := subOp_correct hrep hrept
      exact ihe _ v _ ((evalAst_binOp_eq hacc hvt).trans happ) hrep2 c hc

theorem digitChar_isDigit {d : ℕ} (h : d < 10) : (digitChar d).isDigit = true := by
  interval_cases d <;> decide

theorem digitOf_digitChar {d : ℕ} (h : d < 10) : digitOf (digitChar d) = d := by
  interval_cases d <;> decide

theorem isDigit_ne_brackets {c : Char} (h : c.isDigit = true) :
    c ≠ '[' ∧ c ≠ '(' := by
  constructor <;> rintro rfl <;> simp at h

/-- Characters that may follow a complete atom/number inside a well-formed
string: a closing parenthesis, a comma, or an operator character (or the
end of the input). -/
def BRest (rest : List Char) : Prop :=
  rest = [] ∨ ∃ c cs, rest = c :: cs ∧
    (c = ')' ∨ c = ',' ∨ c = '+' ∨ c = '-' ∨ c = '*' ∨ c = '/' ∨ c = '%')

/-- Rest condition at the power/factor levels: additionally the rest does
not begin with the two characters `**`. -/
def PowRest (rest : List Char) : Prop :=
  BRest rest ∧ ¬(rest.headD ' ' = '*' ∧ rest.tail.headD ' ' = '*')

/-- Rest condition at the term level. -/
def TermRest (rest : List Char) : Prop :=
  rest = [] ∨ ∃ c cs, rest = c :: cs ∧ (c = ')' ∨ c = ',' ∨ c = '+' ∨ c = '-')

/-- Rest condition at the arith level. -/
def ArithRest (rest : List Char) : Prop :=
  rest = [] ∨ ∃ c cs, rest = c :: cs ∧ (c = ')' ∨ c = ',')

theorem TermRest.toBRest {rest : List Char} (h : TermRest rest) : BRest rest := by
  rcases h with rfl | ⟨c, cs, rfl, hc⟩
  · exact .inl rfl
  · exact .inr ⟨c, cs, rfl, by tauto⟩

theorem TermRest.toPowRest {rest : List Char} (h : TermRest rest) : PowRest rest := by
  refine ⟨h.toBRest, ?_⟩
  rcases h with rfl | ⟨c, cs, rfl, hc⟩
  · decide
  · rcases hc with rfl | rfl | rfl | rfl <;> simp

theorem ArithRest.toTermRest {rest : List Char} (h : ArithRest rest) : TermRest rest := by
  rcases h with rfl | ⟨c, cs, rfl, hc⟩
  · exact .inl rfl
  · exact .inr ⟨c, cs, rfl, by tauto⟩

theorem BRest.head_not_digit {rest : List Char} (h : BRest rest) :
    (rest.headD ' ').isDigit = false := by
  rcases h with rfl | ⟨c, cs, rfl, hc⟩
  · decide
  · rcases hc with rfl | rfl | rfl | rfl | rfl | rfl | rfl <;> simp [List.headD_cons]

theorem BRest.head_ne_dot {rest : List Char} (h : BRest rest) :
    ¬(rest.headD ' ' = '.') := by
  rcases h with rfl | ⟨c, cs, rfl, hc⟩
  · decide
  · rcases hc with rfl | rfl | rfl | rfl | rfl | rfl | rfl <;> simp [List.headD_cons]

theorem munchDigits_yield {ds : List ℕ} (h2 : ∀ d ∈ ds, d < 10) (rest : List Char)
    (hrest : (rest.headD ' ').isDigit = false) :
    munchDigits (digitChars ds ++ rest) = (ds, rest) := by
  induction ds with
  | nil =>
    cases rest with
    | nil => rfl
    | cons c cs =>
      simp only [List.headD_cons] at hrest
      simp [digitChars, munchDigits, hrest]
  | cons d ds ih =>
    have hd : d < 10 := h2 d (by simp)
    have ih2 := ih (fun x hx => h2 x (by simp [hx]))
    show munchDigits (digitChar d :: (digitChars ds ++ rest)) = (d :: ds, rest)
    simp [munchDigits, digitChar_isDigit hd, digitOf_digitChar hd, ih2]

theorem readExpPart_of_BRest {rest : List Char} (h : BRest rest) :
    readExpPart rest = .ok none := by
  rcases h with rfl | ⟨c, cs, rfl, hc⟩
  · rfl
  · rcases hc with rfl | rfl | rfl | rfl | rfl | rfl | rfl <;> rfl

theorem munchNumber_int {ds : List ℕ} (h1 : ds ≠ []) (h2 : ∀ d ∈ ds, d < 10)
    (h3 : ds.headD 1 ≠ 0 ∨ digitsVal ds = 0) {rest : List Char} (hr : BRest rest) :
    munchNumber (digitChars ds ++ rest) = .ok (.cint (digitsVal ds), rest) := by
  obtain ⟨d, ds', rfl⟩ := List.exists_cons_of_ne_nil h1
  have hmd := munchDigits_yield h2 rest hr.head_not_digit
  have hlead2 : d = 0 → digitsVal (d :: ds') = 0 := by
    intro h
    rcases h3 with h3 | h3
    · simp [h] at h3
    · exact h3
  unfold munchNumber
  simp only [hmd]
  rw [if_neg hr.head_ne_dot, if_neg (by simp : ¬((d :: ds').isEmpty = true)),
    readExpPart_of_BRest hr]
  simp
  exact hlead2

theorem munchNumber_dec {ip fp : List ℕ} (h1 : ip ≠ []) (_h2 : fp ≠ [])
    (h3 : ∀ d ∈ ip, d < 10) (h4 : ∀ d ∈ fp, d < 10) {rest : List Char}
    (hr : BRest rest) :
    munchNumber (digitChars ip ++ '.' :: (digitChars fp ++ rest)) =
      .ok (.cfloat (fracVal ip fp), rest) := by
  have hmd1 := munchDigits_yield h3 ('.' :: (digitChars fp ++ rest)) (by simp)
  have hmd2 := munchDigits_yield h4 rest hr.head_not_digit
  unfold munchNumber
  simp only [hmd1, List.headD_cons, List.tail_cons, hmd2]
  simp [h1, readExpPart_of_BRest hr]

/-- Characters that can start the yield of a (sub)expression. -/
def StartCh (c : Char) : Prop := c = '+' ∨ c = '-' ∨ c = '(' ∨ c.isDigit = true

/-- Characters that can start the yield of an atom or power. -/
def AtomStart (c : Char) : Prop := c = '(' ∨ c.isDigit = true

theorem AtomStart.toStartCh {c : Char} (h : AtomStart c) : StartCh c := by
  rcases h with h | h
  · exact .inr (.inr (.inl h))
  · exact .inr (.inr (.inr h))

theorem AtomStart.ne_plus {c : Char} (h : AtomStart c) : c ≠ '+' := by
  rcases h with rfl | hd
  · decide
  · rintro rfl
    simp at hd

theorem AtomStart.ne_minus {c : Char} (h : AtomStart c) : c ≠ '-' := by
  rcases h with rfl | hd
  · decide
  · rintro rfl
    simp at hd

theorem StartCh.ne_star {c : Char} (h : StartCh c) : c ≠ '*' := by
  rcases h with rfl | rfl | rfl | hd
  · decide
  · decide
  · decide
  · rintro rfl
    simp at hd

theorem StartCh.ne_slash {c : Char} (h : StartCh c) : c ≠ '/' := by
  rcases h with rfl | rfl | rfl | hd
  · decide
  · decide
  · decide
  · rintro rfl
    simp at hd

/-- Statement of the yield-head lemma per level: expression levels have a
nonempty yield beginning with a start character. -/
def StartStmt : (n : ℕ) → Gram n → Prop
  | 0, g => ∃ c cs, yieldG (n := 0) g = c :: cs ∧ AtomStart c
  | 1, g => ∃ c cs, yieldG (n := 1) g = c :: cs ∧ AtomStart c
  | 2, g => ∃ c cs, yieldG (n := 2) g = c :: cs ∧ StartCh c
  | 3, g => ∃ c cs, yieldG (n := 3) g = c :: cs ∧ StartCh c
  | 4, g => ∃ c cs, yieldG (n := 4) g = c :: cs ∧ StartCh c
  | _ + 5, _ => True

theorem yieldG_start : ∀ {n : ℕ} (g : Gram n), StartStmt n g := by
  intro n g
  induction g with
  | num ds h1 h2 h3 =>
    obtain ⟨d, ds', rfl⟩ := List.exists_cons_of_ne_nil h1
    exact ⟨digitChar d, _, rfl, .inr (digitChar_isDigit (h2 d (by simp)))⟩
  | dec ip fp h1 h2 h3 h4 =>
    obtain ⟨d, ip', rfl⟩ := List.exists_cons_of_ne_nil h1
    exact ⟨digitChar d, _, rfl, .inr (digitChar_isDigit (h3 d (by simp)))⟩
  | paren e ih => exact ⟨'(', _, rfl, .inl rfl⟩
  | pw a ih => exact ih
  | pwExp a f iha ihf =>
    obtain ⟨c, cs, hy, hc⟩ := iha
    exact ⟨c, cs ++ '*' :: '*' :: yieldG f,
      by simp only [yieldG, hy, List.cons_append], hc⟩
  | fpow p ih =>
    obtain ⟨c, cs, hy, hc⟩ := ih
    exact ⟨c, cs, hy, hc.toStartCh⟩
  | fneg f ih => exact ⟨'-', _, rfl, .inr (.inl rfl)⟩
  | fpos f ih => exact ⟨'+', _, rfl, .inl rfl⟩
  | term f t ihf iht =>
    obtain ⟨c, cs, hy, hc⟩ := ihf
    exact ⟨c, cs ++ yieldG t, by simp only [yieldG, hy, List.cons_append], hc⟩
  | ttNil => trivial
  | ttCons op f t ihf iht => trivial
  | expr t e iht ihe =>
    obtain ⟨c, cs, hy, hc⟩ := iht
    exact ⟨c, cs ++ yieldG e, by simp only [yieldG, hy, List.cons_append], hc⟩
  | etNil => trivial
  | etCons op t e iht ihe => trivial

theorem trailers_stop (acc : Ast) (rest : List Char) (fuel : ℕ) (h : BRest rest)
    (hf : 1 ≤ fuel) : parseM fuel (.trailers acc) rest = .ok (acc, rest) := by
  obtain ⟨f, rfl⟩ : ∃ f, fuel = f + 1 := ⟨fuel - 1, by omega⟩
  rcases h with rfl | ⟨c, cs, rfl, hc⟩
  · rfl
  · rcases hc with rfl | rfl | rfl | rfl | rfl | rfl | rfl <;> rfl

theorem termTail_stop (acc : Ast) (rest : List Char) (fuel : ℕ) (h : TermRest rest)
    (hf : 1 ≤ fuel) : parseM fuel (.termTail acc) rest = .ok (acc, rest) := by
  obtain ⟨f, rfl⟩ : ∃ f, fuel = f + 1 := ⟨fuel - 1, by omega⟩
  rcases h with rfl | ⟨c, cs, rfl, hc⟩
  · rfl
  · rcases hc with rfl | rfl | rfl | rfl <;> rfl

theorem arithTail_stop (acc : Ast) (rest : List Char) (fuel : ℕ) (h : ArithRest rest)
    (hf : 1 ≤ fuel) : parseM fuel (.arithTail acc) rest = .ok (acc, rest) := by
  obtain ⟨f, rfl⟩ : ∃ f, fuel = f + 1 := ⟨fuel - 1, by omega⟩
  rcases h with rfl | ⟨c, cs, rfl, hc⟩
  · rfl
  · rcases hc with rfl | rfl <;> rfl

theorem yieldG_atom_len (a : Gram 0) : 1 ≤ (yieldG (n := 0) a).length := by
  obtain ⟨c, cs, hy, _⟩ := yieldG_start a
  simp [hy]

theorem yieldG_factor_len (f : Gram 2) : 1 ≤ (yieldG (n := 2) f).length := by
  obtain ⟨c, cs, hy, _⟩ := yieldG_start f
  simp [hy]

theorem yieldG_term_len (t : Gram 3) : 1 ≤ (yieldG (n := 3) t).length := by
  obtain ⟨c, cs, hy, _⟩ := yieldG_start t
  simp [hy]

theorem termTailYield_powRest (t : Gram 5) {rest : List Char} (h : TermRest rest) :
    PowRest (yieldG (n := 5) t ++ rest) := by
  cases t with
  | ttNil => simpa [yieldG] using h.toPowRest
  | ttCons op f t' =>
    obtain ⟨c, cs, hy, hc⟩ := yieldG_start f
    constructor
    · refine .inr ⟨op.ch, (yieldG (n := 2) f ++ yieldG (n := 5) t') ++ rest,
        by simp [yieldG], ?_⟩
      cases op <;> simp [MulOp.ch]
    · show ¬((yieldG (n := 5) (Gram.ttCons op f t') ++ rest).headD ' ' = '*' ∧ _)
      simp only [yieldG, List.cons_append, List.headD_cons, List.tail_cons]
      rintro ⟨h1, h2⟩
      rw [hy] at h2
      simp only [List.cons_append, List.headD_cons] at h2
      exact hc.ne_star h2

theorem arithTailYield_termRest (e : Gram 6) {rest : List Char} (h : ArithRest rest) :
    TermRest (yieldG (n := 6) e ++ rest) := by
  cases e with
  | etNil => simpa [yieldG] using h.toTermRest
  | etCons op t' e' =>
    refine .inr ⟨op.ch, (yieldG (n := 3) t' ++ yieldG (n := 6) e') ++ rest,
      by simp [yieldG], ?_⟩
    cases op <;> simp [AddOp.ch]

/-- Statement of parser correctness at each grammar level: with enough
fuel, running the parser at the corresponding level on a derivation's
yield followed by an admissible rest consumes exactly the yield and
returns the derivation's AST. -/
def PStmt : (n : ℕ) → Gram n → Prop
  | 0, g => ∀ (rest : List Char) (fuel : ℕ), BRest rest →
      8 * (yieldG (n := 0) g).length + 8 ≤ fuel →
      parseM fuel .atom (yieldG (n := 0) g ++ rest) = .ok (astG (n := 0) g, rest)
  | 1, g => ∀ (rest : List Char) (fuel : ℕ), PowRest rest →
      8 * (yieldG (n := 1) g).length + 11 ≤ fuel →
      parseM fuel .power (yieldG (n := 1) g ++ rest) = .ok (astG (n := 1) g, rest)
  | 2, g => ∀ (rest : List Char) (fuel : ℕ), PowRest rest →
      8 * (yieldG (n := 2) g).length + 12 ≤ fuel →
      parseM fuel .factor (yieldG (n := 2) g ++ rest) = .ok (astG (n := 2) g, rest)
  | 3, g => ∀ (rest : List Char) (fuel : ℕ), TermRest rest →
      8 * (yieldG (n := 3) g).length + 13 ≤ fuel →
      parseM fuel .term (yieldG (n := 3) g ++ rest) = .ok (astG (n := 3) g, rest)
  | 4, g => ∀ (rest : List Char) (fuel : ℕ), ArithRest rest →
      8 * (yieldG (n := 4) g).length + 14 ≤ fuel →
      parseM fuel .arith (yieldG (n := 4) g ++ rest) = .ok (astG (n := 4) g, rest)
  | 5, g => ∀ (acc : Ast) (rest : List Char) (fuel : ℕ), TermRest rest →
      8 * (yieldG (n := 5) g).length + 13 ≤ fuel →
      parseM fuel (.termTail acc) (yieldG (n := 5) g ++ rest) =
        .ok (astG (n := 5) g acc, rest)
  | 6, g => ∀ (acc : Ast) (rest : List Char) (fuel : ℕ), ArithRest rest →
      8 * (yieldG (n := 6) g).length + 13 ≤ fuel →
      parseM fuel (.arithTail acc) (yieldG (n := 6) g ++ rest) =
        .ok (astG (n := 6) g acc, rest)
  | _ + 7, _ => True

theorem parseG_correct : ∀ {n : ℕ} (g : Gram n), PStmt n g := by
  intro n g
  induction g with
  | num ds h1 h2 h3 =>
    intro rest fuel hrest hfuel
    obtain ⟨f, rfl⟩ : ∃ f, fuel = f + 1 := ⟨fuel - 1, by omega⟩
    obtain ⟨d, ds', rfl⟩ := List.exists_cons_of_ne_nil h1
    have hdig := digitChar_isDigit (h2 d (by simp))
    have hne := isDigit_ne_brackets hdig
    have hmn := munchNumber_int h1 h2 h3 hrest
    show parseM (f + 1) .atom (digitChars (d :: ds') ++ rest) = _
    rw [show digitChars (d :: ds') ++ rest = digitChar d :: (digitChars ds' ++ rest)
      from rfl]
    simp only [parseM]
    rw [if_neg hne.1, if_neg hne.2, if_pos (Or.inl hdig)]
    rw [show digitChar d :: (digitChars ds' ++ rest) = digitChars (d :: ds') ++ rest
      from rfl, hmn]
    rfl
  | dec ip fp h1 h2 h3 h4 =>
    intro rest fuel hrest hfuel
    obtain ⟨f, rfl⟩ : ∃ f, fuel = f + 1 := ⟨fuel - 1, by omega⟩
    obtain ⟨d, ip', rfl⟩ := List.exists_cons_of_ne_nil h1
    have hdig := digitChar_isDigit (h3 d (by simp))
    have hne := isDigit_ne_brackets hdig
    have hmn := munchNumber_dec h1 h2 h3 h4 hrest
    have hshape : (digitChars (d :: ip') ++ '.' :: digitChars fp) ++ rest =
        digitChars (d :: ip') ++ '.' :: (digitChars fp ++ rest) := by simp
    show parseM (f + 1) .atom
      ((digitChars (d :: ip') ++ '.' :: digitChars fp) ++ rest) = _
    rw [show (digitChars (d :: ip') ++ '.' :: digitChars fp) ++ rest =
      digitChar d :: ((digitChars ip' ++ '.' :: digitChars fp) ++ rest) from by
        simp [digitChars]]
    simp only [parseM]
    rw [if_neg hne.1, if_neg hne.2, if_pos (Or.inl hdig)]
    rw [show digitChar d :: ((digitChars ip' ++ '.' :: digitChars fp) ++ rest) =
      digitChars (d :: ip') ++ '.' :: (digitChars fp ++ rest) from by
        simp [digitChars], hmn]
    rfl
  | paren e ih =>
    intro rest fuel hrest hfuel
    obtain ⟨f1, rfl⟩ : ∃ f1, fuel = f1 + 1 := ⟨fuel - 1, by omega⟩
    obtain ⟨f2, rfl⟩ : ∃ f2, f1 = f2 + 1 := by
      refine ⟨f1 - 1, ?_⟩
      have := (by simp [yieldG] : 1 ≤ (yieldG (n := 0) (Gram.paren e)).length)
      omega
    have hlen : (yieldG (n := 0) (Gram.paren e)).length =
        (yieldG (n := 4) e).length + 2 := by
      simp [yieldG]
    rw [hlen] at hfuel
    have hih := ih (')' :: rest) f2 (.inr ⟨')', rest, rfl, .inl rfl⟩) (by omega)
    show parseM (f2 + 1 + 1) .atom
      (('(' :: (yieldG (n := 4) e ++ [')'])) ++ rest) = _
    rw [show ('(' :: (yieldG (n := 4) e ++ [')'])) ++ rest =
      '(' :: (yieldG (n := 4) e ++ (')' :: rest)) from by simp]
    simp only [parseM]
    simp [hih, astG]
  | pw a ih =>
    intro rest fuel hrest hfuel
    obtain ⟨f1, rfl⟩ : ∃ f1, fuel = f1 + 1 := ⟨fuel - 1, by omega⟩
    obtain ⟨f2, rfl⟩ : ∃ f2, f1 = f2 + 1 := ⟨f1 - 1, by omega⟩
    have hih := ih rest f2 hrest.1 (by simp only [yieldG] at hfuel ⊢; omega)
    show parseM (f2 + 1 + 1) .power (yieldG (n := 0) a ++ rest) = _
    simp only [parseM]
    simp only [hih]
    rw [trailers_stop _ _ _ hrest.1 (by omega)]
    simp only [if_neg hrest.2]
    rfl
  | pwExp a f iha ihf =>
    intro rest fuel hrest hfuel
    have hlen : (yieldG (n := 1) (Gram.pwExp a f)).length =
        (yieldG (n := 0) a).length + 2 + (yieldG (n := 2) f).length := by
      simp [yieldG]
      omega
    rw [hlen] at hfuel
    have hla := yieldG_atom_len a
    obtain ⟨f1, rfl⟩ : ∃ f1, fuel = f1 + 1 := ⟨fuel - 1, by omega⟩
    have hbrest1 : BRest ('*' :: '*' :: (yieldG (n := 2) f ++ rest)) :=
      .inr ⟨'*', _, rfl, by tauto⟩
    have hPrim : parseM f1 .primary
        (yieldG (n := 0) a ++ ('*' :: '*' :: (yieldG (n := 2) f ++ rest))) =
        .ok (astG (n := 0) a, '*' :: '*' :: (yieldG (n := 2) f ++ rest)) := by
      obtain ⟨f2, rfl⟩ : ∃ f2, f1 = f2 + 1 := ⟨f1 - 1, by omega⟩
      have hihA := iha ('*' :: '*' :: (yieldG (n := 2) f ++ rest)) f2 hbrest1
        (by omega)
      simp only [parseM]
      simp only [hihA]
      rw [trailers_stop _ _ _ hbrest1 (by omega)]
    have hihF : parseM f1 .factor (yieldG (n := 2) f ++ rest) =
        .ok (astG (n := 2) f, rest) := ihf rest f1 hrest (by omega)
    show parseM (f1 + 1) .power (yieldG (n := 1) (Gram.pwExp a f) ++ rest) = _
    rw [show yieldG (n := 1) (Gram.pwExp a f) ++ rest =
      yieldG (n := 0) a ++ ('*' :: '*' :: (yieldG (n := 2) f ++ rest)) from by
        simp [yieldG]]
    simp only [parseM]
    rw [hPrim]
    simp only [List.headD_cons, List.tail_cons, hihF, astG]
    exact if_pos (by trivial)
  | fpow p ih =>
    intro rest fuel hrest hfuel
    obtain ⟨f1, rfl⟩ : ∃ f1, fuel = f1 + 1 := ⟨fuel - 1, by omega⟩
    obtain ⟨c, cs, hy, hc⟩ := yieldG_start p
    have hih := ih rest f1 hrest (by simp only [yieldG] at hfuel; omega)
    show parseM (f1 + 1) .factor (yieldG (n := 1) p ++ rest) = _
    rw [hy] at hih ⊢
    simp only [List.cons_append] at hih ⊢
    simp only [parseM]
    rw [if_neg hc.ne_plus, if_neg hc.ne_minus]
    exact hih
  | fneg f ih =>
    intro rest fuel hrest hfuel
    obtain ⟨f1, rfl⟩ : ∃ f1, fuel = f1 + 1 := ⟨fuel - 1, by omega⟩
    have hih := ih rest f1 hrest (by simp [yieldG] at hfuel; omega)
    show parseM (f1 + 1) .factor (('-' :: yieldG (n := 2) f) ++ rest) = _
    simp only [List.cons_append]
    simp [parseM, hih, astG]
  | fpos f ih =>
    intro rest fuel hrest hfuel
    obtain ⟨f1, rfl⟩ : ∃ f1, fuel = f1 + 1 := ⟨fuel - 1, by omega⟩
    have hih := ih rest f1 hrest (by simp [yieldG] at hfuel; omega)
    show parseM (f1 + 1) .factor (('+' :: yieldG (n := 2) f) ++ rest) = _
    simp only [List.cons_append]
    simp [parseM, hih, astG]
  | term f t ihf iht =>
    intro rest fuel hrest hfuel
    obtain ⟨f1, rfl⟩ : ∃ f1, fuel = f1 + 1 := ⟨fuel - 1, by omega⟩
    have hlen : (yieldG (n := 3) (Gram.term f t)).length =
        (yieldG (n := 2) f).length + (yieldG (n := 5) t).length := by
      simp [yieldG]
    rw [hlen] at hfuel
    have hlf := yieldG_factor_len f
    have hpow := termTailYield_powRest t hrest
    have hihf := ihf (yieldG (n := 5) t ++ rest) f1 hpow (by omega)
    have hiht := iht (astG (n := 2) f) rest f1 hrest (by omega)
    show parseM (f1 + 1) .term
      ((yieldG (n := 2) f ++ yieldG (n := 5) t) ++ rest) = _
    rw [List.append_assoc]
    simp only [parseM]
    simp [hihf, hiht, astG]
  | ttNil =>
    intro acc rest fuel hrest hfuel
    have hstop := termTail_stop acc rest fuel hrest (by omega)
    simpa [yieldG] using hstop
  | ttCons op f t ihf iht =>
    intro acc rest fuel hrest hfuel
    obtain ⟨f1, rfl⟩ : ∃ f1, fuel = f1 + 1 := ⟨fuel - 1, by omega⟩
    have hlen : (yieldG (n := 5) (Gram.ttCons op f t)).length =
        1 + (yieldG (n := 2) f).length + (yieldG (n := 5) t).length := by
      simp [yieldG]
      omega
    rw [hlen] at hfuel
    obtain ⟨c, cs, hy, hc⟩ := yieldG_start f
    have hpow := termTailYield_powRest t hrest
    have hihf := ihf (yieldG (n := 5) t ++ rest) f1 hpow (by omega)
    have hiht := iht (.binOp acc op.toB (astG (n := 2) f)) rest f1 hrest (by omega)
    show parseM (f1 + 1) (.termTail acc)
      ((op.ch :: (yieldG (n := 2) f ++ yieldG (n := 5) t)) ++ rest) = _
    simp only [List.cons_append, List.append_assoc]
    have hhead : (yieldG (n := 2) f).head? = some c := by
      rw [hy]
      rfl
    cases op with
    | mmul =>
      simp only [MulOp.toB] at hiht
      simp [parseM, MulOp.ch, MulOp.toB, hhead, hc.ne_star, hihf, hiht, astG]
    | mdiv =>
      simp only [MulOp.toB] at hiht
      simp [parseM, MulOp.ch, MulOp.toB, hhead, hc.ne_slash, hihf, hiht, astG]
    | mmod =>
      simp only [MulOp.toB] at hiht
      simp [parseM, MulOp.ch, MulOp.toB, hihf, hiht, astG]
  | expr t e iht ihe =>
    intro rest fuel hrest hfuel
    obtain ⟨f1, rfl⟩ : ∃ f1, fuel = f1 + 1 := ⟨fuel - 1, by omega⟩
    have hlen : (yieldG (n := 4) (Gram.expr t e)).length =
        (yieldG (n := 3) t).length + (yieldG (n := 6) e).length := by
      simp [yieldG]
    rw [hlen] at hfuel
    have hlt := yieldG_term_len t
    have hterm := arithTailYield_termRest e hrest
    have hiht := iht (yieldG (n := 6) e ++ rest) f1 hterm (by omega)
    have hihe := ihe (astG (n := 3) t) rest f1 hrest (by omega)
    show parseM (f1 + 1) .arith
      ((yieldG (n := 3) t ++ yieldG (n := 6) e) ++ rest) = _
    rw [List.append_assoc]
    simp only [parseM]
    simp [hiht, hihe, astG]
  | etNil =>
    intro acc rest fuel hrest hfuel
    have hstop := arithTail_stop acc rest fuel hrest (by omega)
    simpa [yieldG] using hstop
  | etCons op t e iht ihe =>
    intro acc rest fuel hrest hfuel
    obtain ⟨f1, rfl⟩ : ∃ f1, fuel = f1 + 1 := ⟨fuel - 1, by omega⟩
    have hlen : (yieldG (n := 6) (Gram.etCons op t e)).length =
        1 + (yieldG (n := 3) t).length + (yieldG (n := 6) e).length := by
      simp [yieldG]
      omega
    rw [hlen] at hfuel
    have hterm := arithTailYield_termRest e hrest
    have hiht := iht (yieldG (n := 6) e ++ rest) f1 (by exact hterm) (by omega)
    have hihe := ihe (.binOp acc op.toB (astG (n := 3) t)) rest f1 hrest (by omega)
    show parseM (f1 + 1) (.arithTail acc)
      ((op.ch :: (yieldG (n := 3) t ++ yieldG (n := 6) e)) ++ rest) = _
    simp only [List.cons_append, List.append_assoc]
    cases op with
    | aadd =>
      simp only [AddOp.toB] at hihe
      simp [parseM, AddOp.ch, AddOp.toB, hiht, hihe, astG]
    | asub =>
      simp only [AddOp.toB] at hihe
      simp [parseM, AddOp.ch, AddOp.toB, hiht, hihe, astG]

/-- Characters untouched by the sanitization pass: not one of the display
symbols, not the caret, not whitespace. -/
def plainCh (c : Char) : Bool :=
  !(c = '×' || c = '÷' || c = '−' || c = '^' || isPyWs c)

theorem sanitizeChars_of_plain {cs : List Char} (h : ∀ c ∈ cs, plainCh c = true) :
    sanitizeChars cs = cs := by
  induction cs with
  | nil => rfl
  | cons c cs ih =>
    have hc := h c (List.mem_cons_self c cs)
    simp only [plainCh, Bool.not_eq_true', Bool.or_eq_false_iff,
      decide_eq_false_iff_not] at hc
    obtain ⟨⟨⟨⟨h1, h2⟩, h3⟩, h4⟩, h5⟩ := hc
    have hm : mapSymbol c = c := by
      simp [mapSymbol, h1, h2, h3]
    have he : expandCaret c = [c] := by
      simp [expandCaret, h4]
    rw [sanitizeChars_cons, hm, he, ih (fun x hx => h x (List.mem_cons_of_mem _ hx))]
    simp [h5]

theorem plainCh_digitChar {d : ℕ} (h : d < 10) : plainCh (digitChar d) = true := by
  interval_cases d <;> decide

theorem yieldG_plain : ∀ {n : ℕ} (g : Gram n) (c : Char),
    c ∈ yieldG g → plainCh c = true := by
  intro n g
  induction g with
  | num ds h1 h2 h3 =>
    intro c hc
    simp only [yieldG, digitChars, List.mem_map] at hc
    obtain ⟨d, hd, rfl⟩ := hc
    exact plainCh_digitChar (h2 d hd)
  | dec ip fp h1 h2 h3 h4 =>
    intro c hc
    simp only [yieldG, digitChars, List.mem_append, List.mem_cons,
      List.mem_map] at hc
    rcases hc with ⟨d, hd, rfl⟩ | rfl | ⟨d, hd, rfl⟩
    · exact plainCh_digitChar (h3 d hd)
    · decide
    · exact plainCh_digitChar (h4 d hd)
  | paren e ih =>
    intro c hc
    simp only [yieldG, List.mem_cons, List.mem_append, List.mem_singleton] at hc
    rcases hc with rfl | hc | rfl | h
    · decide
    · exact ih c hc
    · decide
    · exact absurd h (by simp)
  | pw a ih => exact ih
  | pwExp a f iha ihf =>
    intro c hc
    simp only [yieldG, List.mem_append, List.mem_cons] at hc
    rcases hc with hc | rfl | rfl | hc
    · exact iha c hc
    · decide
    · decide
    · exact ihf c hc
  | fpow p ih => exact ih
  | fneg f ih =>
    intro c hc
    simp only [yieldG, List.mem_cons] at hc
    rcases hc with rfl | hc
    · decide
    · exact ih c hc
  | fpos f ih =>
    intro c hc
    simp only [yieldG, List.mem_cons] at hc
    rcases hc with rfl | hc
    · decide
    · exact ih c hc
  | term f t ihf iht =>
    intro c hc
    simp only [yieldG, List.mem_append] at hc
    rcases hc with hc | hc
    · exact ihf c hc
    · exact iht c hc
  | ttNil =>
    intro c hc
    simp [yieldG] at hc
  | ttCons op f t ihf iht =>
    intro c hc
    simp only [yieldG, List.mem_cons, List.mem_append] at hc
    rcases hc with rfl | hc | hc
    · cases op <;> decide
    · exact ihf c hc
    · exact iht c hc
  | expr t e iht ihe =>
    intro c hc
    simp only [yieldG, List.mem_append] at hc
    rcases hc with hc | hc
    · exact iht c hc
    · exact ihe c hc
  | etNil =>
    intro c hc
    simp [yieldG] at hc
  | etCons op t e iht ihe =>
    intro c hc
    simp only [yieldG, List.mem_cons, List.mem_append] at hc
    rcases hc with rfl | hc | hc
    · cases op <;> decide
    · exact iht c hc
    · exact ihe c hc

theorem numValQ_of_RepP {v : PyNum} {x : ℚ} (h : RepP v x) : numValQ v = some x := by
  rcases h with ⟨k, rfl, hk⟩ | ⟨q, rfl, hq⟩
  · simp [numValQ, hk]
  · simp [numValQ, hq]

theorem parseM_testlist_of_arith {cs rest : List Char} {a : Ast} {fuel : ℕ}
    (h : parseM fuel .arith cs = .ok (a, rest)) (hr : (rest.headD ' ' = ',') = False) :
    parseM (fuel + 1) .testlist cs = .ok (a, rest) := by
  simp only [parseM]
  rw [h]
  show (if rest.headD ' ' = ',' then parseM fuel (.testlistTail [a]) rest.tail
    else Except.ok (a, rest)) = Except.ok (a, rest)
  rw [if_neg (fun hcon => hr ▸ hcon)]

theorem safe_eval_yieldG (g : Gram 4) :
    safe_eval (String.mk (yieldG (n := 4) g)) = evalAst (astG (n := 4) g) := by
  have hplain : sanitizeChars (yieldG (n := 4) g) = yieldG (n := 4) g :=
    sanitizeChars_of_plain (fun c hc => yieldG_plain g c hc)
  have hparse : parseEvalMode (yieldG (n := 4) g) =
      .ok (.expression (astG (n := 4) g)) := by
    have harith := parseG_correct g [] (8 * (yieldG (n := 4) g).length + 29)
      (Or.inl rfl) (by omega)
    rw [List.append_nil] at harith
    have htl := parseM_testlist_of_arith harith (by simp)
    unfold parseEvalMode
    rw [show pyFuel (yieldG (n := 4) g) =
      8 * (yieldG (n := 4) g).length + 29 + 1 from by unfold pyFuel; omega]
    rw [htl]
  obtain ⟨c0, cs0, hy, _⟩ := yieldG_start g
  have hdata : (String.mk (yieldG (n := 4) g)).data = yieldG (n := 4) g := rfl
  unfold safe_eval
  rw [hdata, hplain]
  rw [hy] at hparse ⊢
  simp [hparse, evalAst]

/-- Fuelled floor base-2 logarithm of a natural number. -/
def lg2Go : ℕ → ℕ → ℕ
  | 0, _ => 0
  | f + 1, n => if n < 2 then 0 else lg2Go f (n / 2) + 1

/-- Modelled from the source's float semantics: CPython floats are
IEEE-754 doubles, so every float value the program produces is the
round-to-nearest, ties-to-even double of the exact result, not the exact
result itself.  This is that rounding for rationals in the normal finite
range (the magnitudes used here; overflow to infinity and subnormal
underflow stay out of range): split off sign, locate the binary exponent
with an integer log, scale to a 53-bit mantissa and round the remainder
half-to-even. -/
def roundDouble (q : QQ) : QQ :=
  if q.num = 0 then ⟨0, 1, one_pos⟩
  else
    let s : ℤ := if q.num < 0 then -1 else 1
    let n : ℕ := q.num.natAbs
    let d : ℕ := q.den.natAbs
    let e : ℤ := (lg2Go 2400 (n * 2 ^ 1100 / d) : ℤ) - 1100
    let t : ℤ := 52 - e
    let N : ℕ := n * 2 ^ (max t 0).toNat
    let D : ℕ := d * 2 ^ (max (-t) 0).toNat
    let m0 : ℕ := N / D
    let r : ℕ := N % D
    let m : ℕ :=
      if 2 * r < D then m0
      else if D < 2 * r then m0 + 1
      else if m0 % 2 = 0 then m0 else m0 + 1
    if ht : 0 ≤ t then ⟨s * m, 2 ^ t.toNat, by positivity⟩
    else ⟨s * m * 2 ^ (-t).toNat, 1, one_pos⟩

/-- The decimal literal `0.1` as a grammar derivation. -/
def gPoint1 : Gram 0 := .dec [0] [1] (by decide) (by decide) (by decide) (by decide)

/-- The decimal literal `0.2` as a grammar derivation. -/
def gPoint2 : Gram 0 := .dec [0] [2] (by decide) (by decide) (by decide) (by decide)

/-- The well-formed input `0.1+0.2` as a grammar derivation. -/
def gPoint12 : Gram 4 :=
  .expr (.term (.fpow (.pw gPoint1)) .ttNil)
    (.etCons .aadd (.term (.fpow (.pw gPoint2)) .ttNil) .etNil)

set_option maxRecDepth 100000 in
set_option exponentiation.threshold 1200 in
/-- Claim C3 (counterexample): the well-formed input "0.1+0.2" has the
mathematically correct value 3/10, but the program computes with IEEE
doubles: the literals round to the nearest doubles and their sum rounds
again, giving 5404319552844596/2^54 = 0.30000000000000004…, which is not
3/10.  So a well-formed arithmetic input can evaluate to a value that
differs from the mathematically correct one. -/
theorem c3_counterexample :
    String.mk (yieldG (n := 4) gPoint12) = "0.1+0.2" ∧
    mden (n := 4) gPoint12 = some (3 / 10) ∧
    (roundDouble ((roundDouble (fracVal [0] [1])).add
        (roundDouble (fracVal [0] [2])))).toRat ≠ 3 / 10 := by
  refine ⟨rfl, ?_, ?_⟩
  · norm_num [gPoint12, gPoint1, gPoint2, mden, mAddOp, digitsVal]
  · have hnum : (roundDouble ((roundDouble (fracVal [0] [1])).add
        (roundDouble (fracVal [0] [2])))).num = 5404319552844596 := by decide
    have hden : (roundDouble ((roundDouble (fracVal [0] [1])).add
        (roundDouble (fracVal [0] [2])))).den = 2 ^ 54 := by decide
    unfold QQ.toRat
    rw [hnum, hden]
    norm_num

/-- Claim C3 (amended): well-formed arithmetic follows standard operator
precedence and associativity with right-associative power, and whenever
the evaluator returns an int — the computation stayed inside Python's
exact arbitrary-precision integer arithmetic — that int is exactly the
mathematically correct value.  Float results instead follow IEEE double
arithmetic and are correct only to double precision (see the
counterexample); "7/2" still gives exactly the float 3.5 by true
division because 3.5 is a representable double.  The spec's examples:
"2+2" gives 4, "2*(3+4)" gives 14, "7/2" gives 3.5, "2**10" gives 1024,
"10%3" gives 1, "-5+3" gives -2, and "2**3**2" gives the
right-associated 512. -/
theorem c3_wellformed_arithmetic_correct :
    (∀ (g : Gram 4) (q : ℚ) (n : ℤ), mden (n := 4) g = some q →
      safe_eval (String.mk (yieldG (n := 4) g)) = .ok (.pint n) →
      ((n : ℤ) : ℚ) = q) ∧
    safe_eval "2+2" = .ok (.pint 4) ∧
    safe_eval "2*(3+4)" = .ok (.pint 14) ∧
    (∃ q : QQ, safe_eval "7/2" = .ok (.pfloat q) ∧ q.toRat = 7 / 2) ∧
    safe_eval "2**10" = .ok (.pint 1024) ∧
    safe_eval "10%3" = .ok (.pint 1) ∧
    safe_eval "-5+3" = .ok (.pint (-2)) ∧
    safe_eval "2**3**2" = .ok (.pint 512) := by
  refine ⟨?_, rfl, rfl, ⟨⟨7, 2, two_pos⟩, rfl, by norm_num [QQ.toRat]⟩,
    rfl, rfl, rfl, rfl⟩
  intro g q n hq hev
  obtain ⟨v, hv, hrep⟩ := evalG_correct g q hq
  rw [safe_eval_yieldG g, hv] at hev
  obtain rfl := (Except.ok.inj hev).symm
  rcases hrep with ⟨k, hk, hkq⟩ | ⟨p, hp, hpq⟩
  · obtain rfl := PyNum.pint.inj hk
    exact hkq
  · exact absurd hp (by simp)

theorem digitsVal_append (ds : List ℕ) (d : ℕ) :
    digitsVal (ds ++ [d]) = 10 * digitsVal ds + d := by
  unfold digitsVal
  rw [List.foldl_append]
  rfl

theorem natDigitsGo_spec (fuel : ℕ) : ∀ n : ℕ, n < fuel →
    digitsVal (natDigitsGo fuel n) = n ∧ (∀ d ∈ natDigitsGo fuel n, d < 10) ∧
      natDigitsGo fuel n ≠ [] ∧ ((natDigitsGo fuel n).headD 1 ≠ 0 ∨ n = 0) := by
  induction fuel with
  | zero =>
    intro n h
    omega
  | succ f ih =>
    intro n h
    by_cases h10 : n < 10
    · refine ⟨?_, ?_, ?_, ?_⟩
      · simp [natDigitsGo, h10, digitsVal]
      · intro d hd
        simp [natDigitsGo, h10] at hd
        omega
      · simp [natDigitsGo, h10]
      · by_cases hn0 : n = 0
        · exact Or.inr hn0
        · left
          simp [natDigitsGo, h10, hn0]
    · obtain ⟨hval, hlt, hne, hhead⟩ := ih (n / 10) (by omega)
      have hstep : natDigitsGo (f + 1) n = natDigitsGo f (n / 10) ++ [n % 10] := by
        simp [natDigitsGo, h10]
      refine ⟨?_, ?_, ?_, ?_⟩
      · rw [hstep, digitsVal_append, hval]
        omega
      · intro d hd
        rw [hstep] at hd
        simp only [List.mem_append, List.mem_singleton] at hd
        rcases hd with hd | rfl
        · exact hlt d hd
        · omega
      · rw [hstep]
        simp
      · left
        rw [hstep]
        obtain ⟨x, xs, hx⟩ := List.exists_cons_of_ne_nil hne
        rw [hx] at hhead ⊢
        simp only [List.cons_append, List.headD_cons] at hhead ⊢
        rcases hhead with hh | hh
        · exact hh
        · exact absurd hh (by omega)

theorem natDigits_val (n : ℕ) : digitsVal (natDigits n) = n :=
  (natDigitsGo_spec (n + 1) n (Nat.lt_succ_self n)).1

theorem natDigits_lt (n : ℕ) : ∀ d ∈ natDigits n, d < 10 :=
  (natDigitsGo_spec (n + 1) n (Nat.lt_succ_self n)).2.1

theorem natDigits_ne_nil (n : ℕ) : natDigits n ≠ [] :=
  (natDigitsGo_spec (n + 1) n (Nat.lt_succ_self n)).2.2.1

theorem natDigits_head (n : ℕ) :
    (natDigits n).headD 1 ≠ 0 ∨ digitsVal (natDigits n) = 0 := by
  rcases (natDigitsGo_spec (n + 1) n (Nat.lt_succ_self n)).2.2.2 with h | h
  · exact Or.inl h
  · exact Or.inr (by rw [natDigits_val, h])

/-- Grammar derivation of a natural-number numeral. -/
def gramNat (m : ℕ) : Gram 0 :=
  .num (natDigits m) (natDigits_ne_nil m) (natDigits_lt m) (natDigits_head m)

/-- An atom lifted to a full arithmetic derivation. -/
def gramA4 (a : Gram 0) : Gram 4 := .expr (.term (.fpow (.pw a)) .ttNil) .etNil

/-- A negated atom lifted to a full arithmetic derivation. -/
def gramNeg4 (a : Gram 0) : Gram 4 :=
  .expr (.term (.fneg (.fpow (.pw a))) .ttNil) .etNil

theorem yieldG_gramA4 (a : Gram 0) :
    yieldG (n := 4) (gramA4 a) = yieldG (n := 0) a := by
  simp [gramA4, yieldG]

theorem yieldG_gramNeg4 (a : Gram 0) :
    yieldG (n := 4) (gramNeg4 a) = '-' :: yieldG (n := 0) a := by
  simp [gramNeg4, yieldG]

theorem astG_gramA4 (a : Gram 0) : astG (n := 4) (gramA4 a) = astG (n := 0) a := rfl

theorem astG_gramNeg4 (a : Gram 0) :
    astG (n := 4) (gramNeg4 a) = .unaryOp .usub (astG (n := 0) a) := rfl

theorem safe_eval_pyIntStr (m : ℤ) : safe_eval (pyIntStr m) = .ok (.pint m) := by
  by_cases hm : m < 0
  · have hstr : pyIntStr m = String.mk (yieldG (n := 4) (gramNeg4 (gramNat m.natAbs))) := by
      rw [yieldG_gramNeg4]
      simp [pyIntStr, intChars, hm, natChars, gramNat, yieldG, digitChars]
    rw [hstr, safe_eval_yieldG, astG_gramNeg4]
    show Except.ok (PyNum.pint (-((digitsVal (natDigits m.natAbs) : ℤ)))) =
      Except.ok (PyNum.pint m)
    rw [natDigits_val]
    rw [show -((m.natAbs : ℤ)) = m from by omega]
  · have hstr : pyIntStr m = String.mk (yieldG (n := 4) (gramA4 (gramNat m.toNat))) := by
      rw [yieldG_gramA4]
      simp [pyIntStr, intChars, hm, natChars, gramNat, yieldG, digitChars]
    rw [hstr, safe_eval_yieldG, astG_gramA4]
    show Except.ok (PyNum.pint ((digitsVal (natDigits m.toNat) : ℤ))) =
      Except.ok (PyNum.pint m)
    rw [natDigits_val]
    rw [show ((m.toNat : ℤ)) = m from by omega]

/-- Claim C8: formatting any integer-valued Evaluator result the way the
shell does (whole-number floats become ints, ints print without a decimal
point) and evaluating the formatted string again yields the same numeric
value; and evaluating the already-canonical numeral "4" returns that same
value. -/
theorem c8_integer_result_roundtrip :
    (∀ (v : PyNum) (m : ℤ), numValQ v = some ((m : ℤ) : ℚ) →
      ∃ v2, safe_eval (formatResult v) = .ok v2 ∧
        numValQ v2 = some ((m : ℤ) : ℚ)) ∧
    safe_eval "4" = .ok (.pint 4) := by
  constructor
  · intro v m hm
    cases v with
    | pint k =>
      have hk : ((k : ℚ)) = ((m : ℚ)) := by
        simpa [numValQ] using hm
      have hkm : k = m := by exact_mod_cast hk
      subst hkm
      exact ⟨.pint k, safe_eval_pyIntStr k, by simp [numValQ]⟩
    | pfloat q =>
      have hq : q.toRat = ((m : ℚ)) := by
        simpa [numValQ] using hm
      have hint : q.isInt = true := by
        rw [QQ.isInt_iff_den_one, hq]
        exact Rat.den_intCast m
      have htoi : q.toInt = m := by
        have hnum := QQ.num_toRat_of_isInt hint
        rw [hq] at hnum
        rw [← hnum]
        exact Rat.num_intCast m
      refine ⟨.pint m, ?_, by simp [numValQ]⟩
      rw [show formatResult (.pfloat q) = pyIntStr m from by
        simp [formatResult, hint, htoi]]
      exact safe_eval_pyIntStr m
    | pbool b =>
      cases b with
      | false => exact ⟨.pbool false, rfl, hm⟩
      | true => exact ⟨.pbool true, rfl, hm⟩
    | pcomplex => simp [numValQ] at hm
    | preal => simp [numValQ] at hm
  · rfl

theorem c3_witness :
    mden (n := 4) (gramA4 (gramNat 7)) = some 7 ∧
    safe_eval (String.mk (yieldG (n := 4) (gramA4 (gramNat 7)))) =
      .ok (.pint 7) ∧ (((7 : ℤ) : ℤ) : ℚ) = 7 := by
  have hd : mden (n := 4) (gramA4 (gramNat 7)) = some 7 := rfl
  have he : safe_eval (String.mk (yieldG (n := 4) (gramA4 (gramNat 7)))) =
      .ok (.pint 7) := rfl
  exact ⟨hd, he, c3_wellformed_arithmetic_correct.1 (gramA4 (gramNat 7)) 7 7 hd he⟩

theorem c8_witness :
    numValQ (.pint 4) = some ((4 : ℤ) : ℚ) ∧
    ∃ v2, safe_eval (formatResult (.pint 4)) = .ok v2 ∧
      numValQ v2 = some ((4 : ℤ) : ℚ) := by
  have hv : numValQ (.pint 4) = some ((4 : ℤ) : ℚ) := rfl
  exact ⟨hv, c8_integer_result_roundtrip.1 (.pint 4) 4 hv⟩
